import Mathlib

/-!
Verification of the area-graph construction and polygon-refinement subsystem of
the osmAG-from-cad repository (`src/area_graph_segment`).

The C++ source operates on `double` coordinates.  The embedding uses exact
rationals (`ℚ`) for every quantity the source computes with the four
arithmetic operations, and compares Euclidean distances through their squares
(`d₁ < d₂ ↔ d₁² < d₂²` for nonnegative distances; for comparisons of a
distance against a possibly-negative bound `e` we compare against `e * |e|`,
the sign-preserving square).  The only operations of the source that have no
exact rational counterpart - `std::acos` (used to turn a normalised dot
product into an angle in degrees), `std::sqrt`-valued averages inside the
circularity test, the `std::hash`-based polygon fingerprint, the Euclidean
distance used only as an opaque score, and boost's convex hull - are taken as
explicit function parameters ("oracles"); every theorem below quantifies over
all instantiations of these parameters, so each theorem holds in particular
for the real transcendental functions.
-/

/-- Planar point (the source's `topo_geometry::point`, a pair of doubles). -/
abbrev Pt : Type := ℚ × ℚ

/-- Square of the Euclidean distance between two points
(`boost::geometry::distance` squared). -/
def distSq (a b : Pt) : ℚ :=
  (a.1 - b.1) ^ 2 + (a.2 - b.2) ^ 2

/-- `GeometryUtils::equalLineVertex` (GeometryUtils.cpp:10):
`boost::geometry::distance(a,b) < 1e-6`, compared through squares. -/
def pointsEqual (a b : Pt) : Bool :=
  distSq a b < 1 / 1000000000000

/-- Sign-preserving square: `x * |x|`.  A nonnegative distance `d` satisfies
`d < x ↔ d² < sgnSq x` and `d > x ↔ d² > sgnSq x` even for negative `x`. -/
def sgnSq (x : ℚ) : ℚ := x * |x|

/-- `GeometryUtils::calcPolyArea` (GeometryUtils.cpp:16): shoelace sum over
the cyclic pairs `(last,first), (first,second), …`, absolute value, halved. -/
def calcPolyArea (polygon : List Pt) : ℚ :=
  match polygon with
  | [] => 0
  | x :: xs =>
      let l := x :: xs
      let prevs := l.getLast (List.cons_ne_nil x xs) :: l.dropLast
      |((prevs.zip l).map (fun pc => pc.1.1 * pc.2.2 - pc.1.2 * pc.2.1)).sum| / 2

/-- List indexing with the default point `(0,0)` (models raw `operator[]`
access; every in-range access agrees with the vector access of the source). -/
def getPt (pts : List Pt) (i : ℕ) : Pt := pts.getD i ((0 : ℚ), (0 : ℚ))

/-- `GeometryUtils::pointToLineDistance` (GeometryUtils.cpp:107), squared.
Branch structure follows the source: point-to-point distance when the
segment is degenerate under `equalLineVertex`; clamped projection else. -/
def pointToLineDistSq (p ls le : Pt) : ℚ :=
  if pointsEqual ls le then distSq p ls
  else
    let len2 := (le.1 - ls.1) ^ 2 + (le.2 - ls.2) ^ 2
    let t := ((p.1 - ls.1) * (le.1 - ls.1) + (p.2 - ls.2) * (le.2 - ls.2)) / len2
    if t < 0 then distSq p ls
    else if 1 < t then distSq p le
    else distSq p (ls.1 + t * (le.1 - ls.1), ls.2 + t * (le.2 - ls.2))

/-- `GeometryUtils::isApproximatelyCircular` (GeometryUtils.cpp:195).  The
`< 8` point short-circuit is exact; the radius-variance test needs
`std::sqrt` sums and is abstracted by the oracle `circ`. -/
def isApproximatelyCircular (circ : List Pt → Bool) (pts : List Pt) : Bool :=
  if pts.length < 8 then false else circ pts

/-- One iteration of the triple loop of
`GeometryUtils::calculateLocalCurvature` (GeometryUtils.cpp:149-173) for
loop counter `i`: the deviation `|angle - 180|` of the triple
`(points[(index-i+n)%n], points[(index-i+1+n)%n], points[(index-i+2+n)%n])`,
or `0` when a leg is degenerate (the source's `continue`).  `angleOf d a2 b2`
is the oracle for `acos(clamp(d/(√a2·√b2)))·180/π`; the degeneracy tests
`len < 1e-6` are exact through squares.  `%` on C++ `int` is truncating
division, `Int.tmod`. -/
def tripleDeviation (angleOf : ℚ → ℚ → ℚ → ℚ) (pts : List Pt) (index : ℤ) (i : ℤ) : ℚ :=
  let n : ℤ := pts.length
  let prev := getPt pts ((index - i + n).tmod n).toNat
  let curr := getPt pts ((index - i + 1 + n).tmod n).toNat
  let next := getPt pts ((index - i + 2 + n).tmod n).toNat
  let ax := prev.1 - curr.1
  let ay := prev.2 - curr.2
  let bx := next.1 - curr.1
  let by' := next.2 - curr.2
  let lenA2 := ax ^ 2 + ay ^ 2
  let lenB2 := bx ^ 2 + by' ^ 2
  if lenA2 < 1 / 1000000000000 ∨ lenB2 < 1 / 1000000000000 then 0
  else |angleOf (ax * bx + ay * by') lenA2 lenB2 - 180|

/-- `GeometryUtils::calculateLocalCurvature` (GeometryUtils.cpp:145):
accumulates `tripleDeviation` for `i = 1, …, windowSize-1` and divides the
total by `windowSize` (division by a nonpositive window is the source's
undefined case, `0` in `ℚ`). -/
def calculateLocalCurvature (angleOf : ℚ → ℚ → ℚ → ℚ) (pts : List Pt)
    (index : ℤ) (windowSize : ℤ) : ℚ :=
  let total := (List.range (windowSize.toNat - 1)).foldl
    (fun acc k => acc + tripleDeviation angleOf pts index (Int.ofNat (k + 1))) 0
  total / windowSize

/-- The local-curvature average as the specification describes it: the sum of
the deviations of exactly `windowSize` consecutive triples divided by
`windowSize` (same triple indexing scheme as the code, starting at `i = 1`).
This definition follows the spec's words, for comparison with
`calculateLocalCurvature` which is translated from the source. -/
def specLocalCurvature (angleOf : ℚ → ℚ → ℚ → ℚ) (pts : List Pt)
    (index : ℤ) (windowSize : ℤ) : ℚ :=
  let total := (List.range windowSize.toNat).foldl
    (fun acc k => acc + tripleDeviation angleOf pts index (Int.ofNat (k + 1))) 0
  total / windowSize

/-- `GeometryUtils::isPartOfSmoothCurve` (GeometryUtils.cpp:179), default
window 5: curvature strictly between 5 and 30 degrees. -/
def isPartOfSmoothCurve (angleOf : ℚ → ℚ → ℚ → ℚ) (pts : List Pt) (index : ℤ) : Bool :=
  let curvature := calculateLocalCurvature angleOf pts index 5
  5 < curvature ∧ curvature < 30

/-- The point-kept mask applied to the point vector: `keepPoint[i]`-selected
points in index order (the rebuild loops of PolygonProcessor.cpp:82,231). -/
def maskFilter (pts : List Pt) (keep : List Bool) : List Pt :=
  ((pts.zip keep).filter (fun pk => pk.2)).map Prod.fst

/-- The re-closing step shared by `simplifyPolygon` and
`removeSpikesFromPolygon` (PolygonProcessor.cpp:89,238): if the result is
nonempty and front/back differ under `equalLineVertex`, append the front. -/
def ensureClosed : List Pt → List Pt
  | [] => []
  | x :: xs =>
      if pointsEqual x ((x :: xs).getLast (List.cons_ne_nil x xs)) then x :: xs
      else (x :: xs) ++ [x]

/-- The preserve-point test of PolygonProcessor.cpp:68-69 and 126-127 for one
polygon point: `equalLineVertex(q,pp) || distance(q,pp) < 1e-6` for some
`pp` in the preserve list (the two disjuncts are the same 1e-6 test). -/
def preserveHit (preserve : List Pt) (q : Pt) : Bool :=
  preserve.any (fun pp => pointsEqual q pp || distSq q pp < 1 / 1000000000000)

/-- The furthest-point scan of `douglasPeuckerRecursive`
(PolygonProcessor.cpp:19-28): over `i ∈ (start, en)`, squared distances,
strict improvement, initial value `(0, start)`. -/
def dpFurthest (pts : List Pt) (start en : ℕ) : ℚ × ℕ :=
  (List.range (en - (start + 1))).foldl
    (fun acc k =>
      let i := start + 1 + k
      let d := pointToLineDistSq (getPt pts i) (getPt pts start) (getPt pts en)
      if acc.1 < d then (d, i) else acc)
    (0, start)

/-- `PolygonProcessor::douglasPeuckerRecursive` (PolygonProcessor.cpp:11):
`epsSgnSq` is the sign-preserving square of the effective epsilon.  The
source recurses whenever `maxDistance > epsilon`, keeping the furthest point
first.  The recursion is given as structural recursion on a fuel counter so
that it evaluates by kernel reduction; each recursive span is strictly
shorter, so the caller's fuel `pts.length` is never exhausted except in the
source's own divergent corner (`maxDistance = 0 > epsilon`, possible only
for a negative epsilon, where the source recurses on the same span forever). -/
def dpRec (pts : List Pt) (epsSgnSq : ℚ) : ℕ → ℕ → ℕ → List Bool → List Bool
  | 0, _, _, keep => keep
  | fuel + 1, start, en, keep =>
    if en ≤ start + 1 then keep
    else
      if epsSgnSq < (dpFurthest pts start en).1 then
        dpRec pts epsSgnSq fuel (dpFurthest pts start en).2 en
          (dpRec pts epsSgnSq fuel start (dpFurthest pts start en).2
            (keep.set (dpFurthest pts start en).2 true))
      else keep

/-- `PolygonProcessor::simplifyPolygon` (PolygonProcessor.cpp:39): no-op for
at most 3 points; effective epsilon `×0.5` when circular else `×1.5`; keep
mask initialised at the two endpoints; preserve points force-kept; then the
Douglas-Peucker recursion, mask rebuild and re-closing. -/
def simplifyPolygon (circ : List Pt → Bool) (polygon : List Pt) (epsilon : ℚ)
    (preserve : List Pt) : List Pt :=
  if polygon.length ≤ 3 then polygon
  else
    let pts := polygon
    let n := pts.length
    let isCircular := isApproximatelyCircular circ pts
    let effectiveEpsilon := if isCircular then epsilon * (1 / 2) else epsilon * (3 / 2)
    let keep0 := ((List.replicate n false).set 0 true).set (n - 1) true
    let keep1 := (List.range n).foldl
      (fun k i => if preserveHit preserve (getPt pts i) then k.set i true else k) keep0
    let keep2 := dpRec pts (sgnSq effectiveEpsilon) n 0 (n - 1) keep1
    ensureClosed (maskFilter pts keep2)

/-- The spike decision for index `curr` of
`PolygonProcessor::removeSpikesFromPolygon` (PolygonProcessor.cpp:136-227):
returns `none` when the point is skipped (degenerate legs), else whether it
is removed.  All distance/length comparisons are exact through squares
(`minVectorLen > 0.1 ↔ min² > 1/100`, `ratio < 0.1 ↔ dist² ·100 < min²`,
`ratio < 0.05 ↔ dist² ·400 < min²`); the angle in degrees is the
`angleOf` oracle's output, an exact rational afterwards. -/
def spikeAt (circ : List Pt → Bool) (angleOf : ℚ → ℚ → ℚ → ℚ) (pts : List Pt)
    (isCircular : Bool) (effAngle effDist : ℚ) (i : ℕ) : Option Bool :=
  let n := pts.length
  let prev := getPt pts ((i + n - 1) % n)
  let curr := getPt pts i
  let next := getPt pts ((i + 1) % n)
  let ax := prev.1 - curr.1
  let ay := prev.2 - curr.2
  let bx := next.1 - curr.1
  let by' := next.2 - curr.2
  let lenA2 := ax ^ 2 + ay ^ 2
  let lenB2 := bx ^ 2 + by' ^ 2
  if lenA2 < 1 / 1000000000000 ∨ lenB2 < 1 / 1000000000000 then none
  else
    let angle := angleOf (ax * bx + ay * by') lenA2 lenB2
    let dSq := pointToLineDistSq curr prev next
    let isCurve := isPartOfSmoothCurve angleOf pts (i : ℤ)
    if isCurve ∧ isCircular then some false
    else
      let c1 : Bool := effAngle < |angle - 90| ∧ dSq < sgnSq effDist
      let c2 : Bool := if isCircular then angle < 15 ∨ 165 < angle
                       else angle < 30 ∨ 150 < angle
      let minLen2 := min lenA2 lenB2
      let c3 : Bool := if isCircular then 1 / 100 < minLen2 ∧ dSq * 400 < minLen2
                       else 1 / 100 < minLen2 ∧ dSq * 100 < minLen2
      some (c1 || c2 || c3)

/-- `PolygonProcessor::removeSpikesFromPolygon` (PolygonProcessor.cpp:97):
no-op for at most 3 points; circularity-adjusted thresholds; preserve
indices skipped; every index examined once against `spikeAt`; mask rebuild
and re-closing. -/
def removeSpikesFromPolygon (circ : List Pt → Bool) (angleOf : ℚ → ℚ → ℚ → ℚ)
    (polygon : List Pt) (angleThreshold distanceThreshold : ℚ)
    (preserve : List Pt) : List Pt :=
  if polygon.length ≤ 3 then polygon
  else
    let pts := polygon
    let n := pts.length
    let isCircular := isApproximatelyCircular circ pts
    let effAngle := if isCircular then angleThreshold * (1 / 2) else angleThreshold
    let effDist := if isCircular then distanceThreshold * 2 else distanceThreshold
    let keep := (List.range n).foldl
      (fun k i =>
        if preserveHit preserve (getPt pts i) then k
        else match spikeAt circ angleOf pts isCircular effAngle effDist i with
          | none => k
          | some b => if b then k.set i false else k)
      (List.replicate n true)
    ensureClosed (maskFilter pts keep)

/-! ### List mask and marking lemmas -/

theorem maskFilter_cons (x : Pt) (xs : List Pt) (b : Bool) (ks : List Bool) :
    maskFilter (x :: xs) (b :: ks)
      = if b then x :: maskFilter xs ks else maskFilter xs ks := by
  cases b <;> simp [maskFilter]

theorem maskFilter_length_le (pts : List Pt) (keep : List Bool) :
    (maskFilter pts keep).length ≤ pts.length := by
  simp only [maskFilter, List.length_map]
  exact le_trans (List.length_filter_le _ _) (by simp [List.length_zip])

theorem maskFilter_mem : ∀ (pts : List Pt) (keep : List Bool) (i : ℕ),
    keep.getD i false = true → i < pts.length → getPt pts i ∈ maskFilter pts keep := by
  intro pts
  induction pts with
  | nil => intro keep i _ hi; simp at hi
  | cons x xs ih =>
    intro keep i hk hi
    cases keep with
    | nil => simp [List.getD] at hk
    | cons b ks =>
      cases i with
      | zero =>
        simp only [List.getD, List.getElem?_cons_zero, Option.getD_some] at hk
        subst hk
        simp [maskFilter_cons, getPt]
      | succ n =>
        have hmem := ih ks n (by simpa [List.getD] using hk) (by simpa using hi)
        have hg : getPt (x :: xs) (n + 1) = getPt xs n := by simp [getPt]
        rw [maskFilter_cons, hg]
        cases b <;> simp [hmem]

theorem maskFilter_head? (pts : List Pt) (keep : List Bool)
    (h0 : keep.getD 0 false = true) :
    (maskFilter pts keep).head? = pts.head? := by
  cases pts with
  | nil => simp [maskFilter]
  | cons x xs =>
    cases keep with
    | nil => simp [List.getD] at h0
    | cons b ks =>
      simp only [List.getD, List.getElem?_cons_zero, Option.getD_some] at h0
      subst h0
      simp [maskFilter_cons]

theorem maskFilter_getLast? : ∀ (pts : List Pt) (keep : List Bool),
    keep.getD (pts.length - 1) false = true →
    (maskFilter pts keep).getLast? = pts.getLast? := by
  intro pts
  induction pts with
  | nil => intro keep _; simp [maskFilter]
  | cons x xs ih =>
    intro keep hk
    cases keep with
    | nil => simp [List.getD] at hk
    | cons b ks =>
      cases xs with
      | nil =>
        simp only [List.length_cons, List.length_nil, Nat.zero_add, Nat.sub_self,
          List.getD, List.getElem?_cons_zero, Option.getD_some] at hk
        subst hk
        simp [maskFilter_cons, maskFilter]
      | cons y ys =>
        have hk2 : ks.getD ((y :: ys).length - 1) false = true := by
          simpa [List.getD, Nat.succ_sub_one] using hk
        have ihy := ih ks hk2
        have hne : maskFilter (y :: ys) ks ≠ [] := by
          intro hcon
          rw [hcon] at ihy
          simp [List.getLast?] at ihy
        rw [maskFilter_cons]
        have hlast : (x :: y :: ys).getLast? = (y :: ys).getLast? := by
          simp [List.getLast?_cons_cons]
        cases b with
        | false => simpa [hlast] using ihy
        | true =>
          simp only [if_true]
          rw [hlast, ← ihy]
          obtain ⟨m, ms, hms⟩ := List.exists_cons_of_ne_nil hne
          rw [hms]
          simp [List.getLast?_cons_cons]

theorem set_true_getD_mono (k : List Bool) (i j : ℕ) (h : k.getD j false = true) :
    (k.set i true).getD j false = true := by
  by_cases hij : i = j
  · subst hij
    by_cases hlen : i < k.length
    · simp [List.getD, List.getElem?_set_self, hlen]
    · rw [List.set_eq_of_length_le (by omega)]
      exact h
  · simpa [List.getD, List.getElem?_set_ne hij] using h

theorem markFold_getD_mono (c : ℕ → Bool) : ∀ (l : List ℕ) (k : List Bool) (j : ℕ),
    k.getD j false = true →
    (l.foldl (fun k i => if c i then k.set i true else k) k).getD j false = true := by
  intro l
  induction l with
  | nil => intro k j h; simpa using h
  | cons a t ih =>
    intro k j h
    simp only [List.foldl_cons]
    by_cases hc : c a = true
    · rw [if_pos hc]
      exact ih _ j (set_true_getD_mono k a j h)
    · rw [if_neg hc]
      exact ih _ j h

theorem markFold_getD_hit (c : ℕ → Bool) : ∀ (l : List ℕ) (k : List Bool) (j : ℕ),
    j ∈ l → c j = true → j < k.length →
    (l.foldl (fun k i => if c i then k.set i true else k) k).getD j false = true := by
  intro l
  induction l with
  | nil => intro k j h; simp at h
  | cons a t ih =>
    intro k j hmem hc hlen
    simp only [List.foldl_cons]
    rcases List.mem_cons.mp hmem with rfl | hmem2
    · rw [if_pos hc]
      exact markFold_getD_mono c t _ j (by simp [List.getD, List.getElem?_set_self, hlen])
    · have hlen2 : j < (if c a = true then k.set a true else k).length := by
        by_cases hca : c a = true <;> simp [hca, hlen]
      exact ih _ j hmem2 hc (by simpa using hlen2)

theorem dpRec_length (pts : List Pt) (e : ℚ) : ∀ (fuel s en : ℕ) (k : List Bool),
    (dpRec pts e fuel s en k).length = k.length := by
  intro fuel
  induction fuel with
  | zero => intro s en k; rfl
  | succ f ih =>
    intro s en k
    rw [dpRec]
    by_cases h1 : en ≤ s + 1
    · simp [h1]
    · rw [if_neg h1]
      by_cases h2 : e < (dpFurthest pts s en).1
      · rw [if_pos h2, ih, ih]
        simp
      · rw [if_neg h2]

theorem dpRec_getD_mono (pts : List Pt) (e : ℚ) : ∀ (fuel s en : ℕ) (k : List Bool) (j : ℕ),
    k.getD j false = true → (dpRec pts e fuel s en k).getD j false = true := by
  intro fuel
  induction fuel with
  | zero => intro s en k j hk; exact hk
  | succ f ih =>
    intro s en k j hk
    rw [dpRec]
    by_cases h1 : en ≤ s + 1
    · simpa [h1, List.getD] using hk
    · rw [if_neg h1]
      by_cases h2 : e < (dpFurthest pts s en).1
      · rw [if_pos h2]
        exact ih _ _ _ _ (ih _ _ _ _ (set_true_getD_mono k _ j hk))
      · rw [if_neg h2]; exact hk

/-! ### Closure of the re-closing step -/

/-- A nonempty polygon is closed when its first and last points agree under
the 1e-6 `pointsEqual` tolerance. -/
def IsClosedRing (l : List Pt) : Prop :=
  ∀ h : l ≠ [], pointsEqual (l.head h) (l.getLast h) = true

theorem pointsEqual_refl (x : Pt) : pointsEqual x x = true := by
  simp only [pointsEqual, distSq, sub_self, ne_eq, OfNat.ofNat_ne_zero,
    not_false_eq_true, zero_pow, add_zero, decide_eq_true_eq]
  norm_num

theorem ensureClosed_isClosed (l : List Pt) : IsClosedRing (ensureClosed l) := by
  cases l with
  | nil => intro h; simp [ensureClosed] at h
  | cons x xs =>
    intro h
    by_cases hc : pointsEqual x ((x :: xs).getLast (List.cons_ne_nil x xs)) = true
    · simp only [ensureClosed, hc, if_true]
      simpa using hc
    · simp only [ensureClosed, hc, if_false, Bool.false_eq_true] at h ⊢
      have hh : ((x :: xs) ++ [x]).head (by simp) = x := by
        simp [List.head_append_of_ne_nil]
      have hl : ((x :: xs) ++ [x]).getLast (by simp) = x := by
        simp [List.getLast_append]
      rw [hh, hl]
      exact pointsEqual_refl x

theorem ensureClosed_length_le (l : List Pt) :
    (ensureClosed l).length ≤ l.length + 1 := by
  cases l with
  | nil => simp [ensureClosed]
  | cons x xs =>
    by_cases hc : pointsEqual x ((x :: xs).getLast (List.cons_ne_nil x xs)) = true <;>
      simp [ensureClosed, hc]

theorem ensureClosed_of_closed (l : List Pt) (hne : l ≠ [])
    (h : pointsEqual (l.head hne) (l.getLast hne) = true) : ensureClosed l = l := by
  cases l with
  | nil => simp at hne
  | cons x xs =>
    simp only [List.head_cons] at h
    simp [ensureClosed, h]

theorem mem_ensureClosed (l : List Pt) (q : Pt) (h : q ∈ l) : q ∈ ensureClosed l := by
  cases l with
  | nil => simp at h
  | cons x xs =>
    by_cases hc : pointsEqual x ((x :: xs).getLast (List.cons_ne_nil x xs)) = true
    · simpa [ensureClosed, hc] using h
    · simp only [ensureClosed, hc, if_false, Bool.false_eq_true]
      exact List.mem_append_left _ h

/-! ### Claims C5, C6, C7 - polygon refinement properties -/

/-- Claim C5, amended: for every input polygon with MORE THAN 3 POINTS (and
every epsilon, spike thresholds, preserve set and oracle instantiation), the
polygons returned by `simplifyPolygon` and by `removeSpikesFromPolygon`,
whenever non-empty, have their first and last points equal under the 1e-6
point-equality tolerance.  (Inputs with at most 3 points are returned
unchanged by both functions and may be open - see the counterexample.) -/
theorem claim5_closure_after_refinement (circ : List Pt → Bool)
    (angleOf : ℚ → ℚ → ℚ → ℚ) (polygon : List Pt)
    (epsilon angleThreshold distanceThreshold : ℚ) (preserve : List Pt)
    (hlen : 4 ≤ polygon.length) :
    IsClosedRing (simplifyPolygon circ polygon epsilon preserve) ∧
    IsClosedRing (removeSpikesFromPolygon circ angleOf polygon angleThreshold
      distanceThreshold preserve) := by
  constructor
  · simp only [simplifyPolygon]
    rw [if_neg (by omega)]
    exact ensureClosed_isClosed _
  · simp only [removeSpikesFromPolygon]
    rw [if_neg (by omega)]
    exact ensureClosed_isClosed _

/-- Witness for C5 at a concrete 4-point input. -/
theorem claim5_closure_witness :
    IsClosedRing (simplifyPolygon (fun _ => false)
      [((0 : ℚ), (0 : ℚ)), (10, 0), (10, 10), (0, 10)] 1 []) ∧
    IsClosedRing (removeSpikesFromPolygon (fun _ => false) (fun _ _ _ => 0)
      [((0 : ℚ), (0 : ℚ)), (10, 0), (10, 10), (0, 10)] 30 (3 / 10) []) :=
  claim5_closure_after_refinement (fun _ => false) (fun _ _ _ => 0)
    [((0 : ℚ), (0 : ℚ)), (10, 0), (10, 10), (0, 10)] 1 30 (3 / 10) []
    (of_decide_eq_true (by with_unfolding_all rfl))

/-- Counterexample to C5 as stated: the open 3-point polygon
`[(0,0),(3,0),(0,4)]` is returned unchanged by both functions (the `size()
<= 3` early return, PolygonProcessor.cpp:43,101), and its first and last
points are 4 apart, far beyond the 1e-6 tolerance. -/
theorem claim5_counterexample_small_open_ring :
    ¬ IsClosedRing (simplifyPolygon (fun _ => false)
        [((0 : ℚ), (0 : ℚ)), (3, 0), (0, 4)] 1 []) ∧
    ¬ IsClosedRing (removeSpikesFromPolygon (fun _ => false) (fun _ _ _ => 0)
        [((0 : ℚ), (0 : ℚ)), (3, 0), (0, 4)] 30 (3 / 10) []) := by
  have h1 : simplifyPolygon (fun _ => false)
      [((0 : ℚ), (0 : ℚ)), (3, 0), (0, 4)] 1 [] = [((0 : ℚ), (0 : ℚ)), (3, 0), (0, 4)] := by
    with_unfolding_all rfl
  have h2 : removeSpikesFromPolygon (fun _ => false) (fun _ _ _ => 0)
      [((0 : ℚ), (0 : ℚ)), (3, 0), (0, 4)] 30 (3 / 10) []
      = [((0 : ℚ), (0 : ℚ)), (3, 0), (0, 4)] := by
    with_unfolding_all rfl
  have hne : pointsEqual ((0 : ℚ), (0 : ℚ)) ((0 : ℚ), (4 : ℚ)) = false := by
    with_unfolding_all rfl
  constructor
  · intro hcl
    rw [h1] at hcl
    have := hcl (by simp)
    simp only [List.head_cons] at this
    rw [show ([((0 : ℚ), (0 : ℚ)), (3, 0), (0, 4)] : List Pt).getLast (by simp)
        = ((0 : ℚ), (4 : ℚ)) from rfl] at this
    rw [hne] at this
    exact Bool.false_ne_true this
  · intro hcl
    rw [h2] at hcl
    have := hcl (by simp)
    simp only [List.head_cons] at this
    rw [show ([((0 : ℚ), (0 : ℚ)), (3, 0), (0, 4)] : List Pt).getLast (by simp)
        = ((0 : ℚ), (4 : ℚ)) from rfl] at this
    rw [hne] at this
    exact Bool.false_ne_true this

/-- Claim C6, amended: for every ring, epsilon, preserve set and oracle, and
every preserve point p, IF SOME POINT OF THE INPUT RING lies within 1e-6 of
p, then the output of `simplifyPolygon` contains a point within 1e-6 of p.
(If no input point is near p the algorithm has nothing to keep - see the
counterexample refuting the unconditional claim.) -/
theorem claim6_preserve_points_survive (circ : List Pt → Bool) (polygon : List Pt)
    (epsilon : ℚ) (preserve : List Pt) (p : Pt) (hmem : p ∈ preserve)
    (hp : ∃ q ∈ polygon, distSq q p < 1 / 1000000000000) :
    ∃ q ∈ simplifyPolygon circ polygon epsilon preserve,
      distSq q p < 1 / 1000000000000 := by
  obtain ⟨q, hq, hdist⟩ := hp
  by_cases hlen : polygon.length ≤ 3
  · simp only [simplifyPolygon]
    rw [if_pos hlen]
    exact ⟨q, hq, hdist⟩
  · obtain ⟨⟨i, hi⟩, rfl⟩ := List.mem_iff_get.mp hq
    have hgp : getPt polygon i = polygon.get ⟨i, hi⟩ := by
      simp [getPt, List.getD, List.getElem?_eq_getElem hi, List.get_eq_getElem]
    simp only [simplifyPolygon]
    rw [if_neg hlen]
    refine ⟨getPt polygon i, ?_, by rw [hgp]; exact hdist⟩
    apply mem_ensureClosed
    apply maskFilter_mem _ _ i _ hi
    apply dpRec_getD_mono
    apply markFold_getD_hit (fun j => preserveHit preserve (getPt polygon j))
      (List.range polygon.length) _ i (List.mem_range.mpr hi)
    · show preserveHit preserve (getPt polygon i) = true
      unfold preserveHit
      apply List.any_eq_true.mpr
      refine ⟨p, hmem, ?_⟩
      rw [Bool.or_eq_true]
      right
      rw [hgp]
      exact decide_eq_true hdist
    · simpa using hi

/-- Witness for C6: the interior point (2,0) of a hexagonal ring is a
preserve point; the theorem instance keeps a point within 1e-6 of it. -/
theorem claim6_preserve_points_witness :
    ∃ q ∈ simplifyPolygon (fun _ => false)
        [((0 : ℚ), (0 : ℚ)), (2, 0), (4, 0), (4, 4), (0, 4), (0, 0)] 1
        [((2 : ℚ), (0 : ℚ))],
      distSq q ((2 : ℚ), (0 : ℚ)) < 1 / 1000000000000 :=
  claim6_preserve_points_survive (fun _ => false)
    [((0 : ℚ), (0 : ℚ)), (2, 0), (4, 0), (4, 4), (0, 4), (0, 0)] 1
    [((2 : ℚ), (0 : ℚ))] ((2 : ℚ), (0 : ℚ))
    (of_decide_eq_true (by with_unfolding_all rfl))
    ⟨((2 : ℚ), (0 : ℚ)), of_decide_eq_true (by with_unfolding_all rfl),
      of_decide_eq_true (by with_unfolding_all rfl)⟩

/-- Counterexample to C6 as stated: with the closed square ring
`[(0,0),(4,0),(4,4),(0,4),(0,0)]`, epsilon 1, and preserve set `[(50,50)]`,
no point of the output is within 1e-6 of the preserve point (50,50): the
output is a subset of the input points, all of which are far away. -/
theorem claim6_counterexample_far_preserve_point :
    ((50 : ℚ), (50 : ℚ)) ∈ ([((50 : ℚ), (50 : ℚ))] : List Pt) ∧
    ∀ q ∈ simplifyPolygon (fun _ => false)
        [((0 : ℚ), (0 : ℚ)), (4, 0), (4, 4), (0, 4), (0, 0)] 1
        [((50 : ℚ), (50 : ℚ))],
      ¬ distSq q ((50 : ℚ), (50 : ℚ)) < 1 / 1000000000000 :=
  ⟨of_decide_eq_true (by with_unfolding_all rfl),
   of_decide_eq_true (by with_unfolding_all rfl)⟩

/-- Claim C7, amended: `simplifyPolygon` adds at most the single re-closing
point: `|output| ≤ |input| + 1` always, and `|output| ≤ |input|` whenever
the input ring is already closed under the 1e-6 tolerance (the source
appends a copy of the first point only when the kept endpoints differ).
The unconditional `|output| ≤ |input|` of the claim fails on open inputs -
see the counterexample. -/
theorem claim7_simplify_size_bound (circ : List Pt → Bool) (polygon : List Pt)
    (epsilon : ℚ) (preserve : List Pt) :
    (simplifyPolygon circ polygon epsilon preserve).length ≤ polygon.length + 1 ∧
    (IsClosedRing polygon →
      (simplifyPolygon circ polygon epsilon preserve).length ≤ polygon.length) := by
  by_cases hlen : polygon.length ≤ 3
  · simp only [simplifyPolygon]
    rw [if_pos hlen]
    exact ⟨by omega, fun _ => le_rfl⟩
  · simp only [simplifyPolygon]
    rw [if_neg hlen]
    have hmlen : ∀ keep : List Bool,
        (maskFilter polygon keep).length ≤ polygon.length :=
      fun keep => maskFilter_length_le polygon keep
    constructor
    · exact le_trans (ensureClosed_length_le _) (by
        have := hmlen (dpRec polygon
          (sgnSq (if isApproximatelyCircular circ polygon then epsilon * (1 / 2)
            else epsilon * (3 / 2))) polygon.length 0 (polygon.length - 1)
          ((List.range polygon.length).foldl
            (fun k i => if preserveHit preserve (getPt polygon i) then k.set i true else k)
            (((List.replicate polygon.length false).set 0 true).set
              (polygon.length - 1) true)))
        omega)
    · intro hcl
      have hne : polygon ≠ [] := by
        intro hcon; rw [hcon] at hlen; simp at hlen
      -- the kept mask is true at both endpoints
      have hk00 : (((List.replicate polygon.length false).set 0 true).set
          (polygon.length - 1) true).getD 0 false = true := by
        simp only [List.getD, List.get?_eq_getElem?]
        rw [List.getElem?_set_ne (by omega), List.getElem?_set_self (by simp; omega)]
        rfl
      have hkNN : (((List.replicate polygon.length false).set 0 true).set
          (polygon.length - 1) true).getD (polygon.length - 1) false = true := by
        simp only [List.getD, List.get?_eq_getElem?]
        rw [List.getElem?_set_self (by simp; omega)]
        rfl
      have hk0 : (dpRec polygon
          (sgnSq (if isApproximatelyCircular circ polygon then epsilon * (1 / 2)
            else epsilon * (3 / 2))) polygon.length 0 (polygon.length - 1)
          ((List.range polygon.length).foldl
            (fun k i => if preserveHit preserve (getPt polygon i) then k.set i true else k)
            (((List.replicate polygon.length false).set 0 true).set
              (polygon.length - 1) true))).getD 0 false = true :=
        dpRec_getD_mono _ _ _ _ _ _ _
          (markFold_getD_mono _ _ _ _ hk00)
      have hkN : (dpRec polygon
          (sgnSq (if isApproximatelyCircular circ polygon then epsilon * (1 / 2)
            else epsilon * (3 / 2))) polygon.length 0 (polygon.length - 1)
          ((List.range polygon.length).foldl
            (fun k i => if preserveHit preserve (getPt polygon i) then k.set i true else k)
            (((List.replicate polygon.length false).set 0 true).set
              (polygon.length - 1) true))).getD (polygon.length - 1) false = true :=
        dpRec_getD_mono _ _ _ _ _ _ _
          (markFold_getD_mono _ _ _ _ hkNN)
      have hhead := maskFilter_head? polygon _ hk0
      have hlast := maskFilter_getLast? polygon _ hkN
      set filtered := maskFilter polygon
        (dpRec polygon
          (sgnSq (if isApproximatelyCircular circ polygon then epsilon * (1 / 2)
            else epsilon * (3 / 2))) polygon.length 0 (polygon.length - 1)
          ((List.range polygon.length).foldl
            (fun k i => if preserveHit preserve (getPt polygon i) then k.set i true else k)
            (((List.replicate polygon.length false).set 0 true).set
              (polygon.length - 1) true))) with hfilt
      have hfne : filtered ≠ [] := by
        intro hcon
        rw [hcon] at hhead
        rw [List.head?_eq_head hne] at hhead
        simp at hhead
      have hfh : filtered.head hfne = polygon.head hne := by
        have := hhead
        rw [List.head?_eq_head hne, List.head?_eq_head hfne] at this
        exact Option.some_injective _ this
      have hfl : filtered.getLast hfne = polygon.getLast hne := by
        have := hlast
        rw [List.getLast?_eq_getLast _ hne, List.getLast?_eq_getLast _ hfne] at this
        exact Option.some_injective _ this
      have hclosed : pointsEqual (filtered.head hfne) (filtered.getLast hfne) = true := by
        rw [hfh, hfl]; exact hcl hne
      rw [ensureClosed_of_closed filtered hfne hclosed]
      exact maskFilter_length_le _ _

/-- Witness for C7 at a concrete closed ring (both bounds hold). -/
theorem claim7_simplify_size_witness :
    IsClosedRing [((0 : ℚ), (0 : ℚ)), (4, 0), (4, 4), (0, 4), (0, 0)] ∧
    (simplifyPolygon (fun _ => false)
      [((0 : ℚ), (0 : ℚ)), (4, 0), (4, 4), (0, 4), (0, 0)] 1 []).length ≤ 5 :=
  have hcl : IsClosedRing [((0 : ℚ), (0 : ℚ)), (4, 0), (4, 4), (0, 4), (0, 0)] :=
    fun _ => pointsEqual_refl ((0 : ℚ), (0 : ℚ))
  ⟨hcl, (claim7_simplify_size_bound (fun _ => false)
    [((0 : ℚ), (0 : ℚ)), (4, 0), (4, 4), (0, 4), (0, 0)] 1 []).2 hcl⟩

/-- Counterexample to C7 as stated: the open 4-point square
`[(0,0),(10,0),(10,10),(0,10)]` with epsilon 1 keeps all 4 points and the
re-closing step appends a 5th, so `|output| = 5 > 4 = |input|`. -/
theorem claim7_counterexample_adds_closing_point :
    (simplifyPolygon (fun _ => false)
      [((0 : ℚ), (0 : ℚ)), (10, 0), (10, 10), (0, 10)] 1 []).length = 5 ∧
    ([((0 : ℚ), (0 : ℚ)), (10, 0), (10, 10), (0, 10)] : List Pt).length = 4 :=
  ⟨of_decide_eq_true (by with_unfolding_all rfl), rfl⟩

/-! ### Claim C10 - local curvature -/

theorem foldl_add_eq_sum (g : ℕ → ℚ) : ∀ (l : List ℕ) (a : ℚ),
    l.foldl (fun acc k => acc + g k) a = a + (l.map g).sum := by
  intro l
  induction l with
  | nil => intro a; simp
  | cons x t ih =>
    intro a
    simp only [List.foldl_cons, List.map_cons, List.sum_cons]
    rw [ih]
    ring

/-- Helper: the curvature loop accumulates the deviations of the `window-1`
loop counters `i = 1 … window-1` into a mapped sum. -/
theorem calculateLocalCurvature_eq_sum (angleOf : ℚ → ℚ → ℚ → ℚ) (pts : List Pt)
    (index windowSize : ℤ) :
    calculateLocalCurvature angleOf pts index windowSize =
      ((List.range (windowSize.toNat - 1)).map
        (fun k => tripleDeviation angleOf pts index (Int.ofNat (k + 1)))).sum / windowSize := by
  simp only [calculateLocalCurvature]
  rw [foldl_add_eq_sum (fun k => tripleDeviation angleOf pts index (Int.ofNat (k + 1)))]
  rw [zero_add]

/-- Claim C10, amended: `calculateLocalCurvature(points, index, window)`
returns the sum of the angular deviations `|angle - 180°|` over exactly
`window - 1` consecutive point-triples (loop counters `i = 1 … window-1`,
circular indexing), DIVIDED BY `window` - not an average over `window`
triples as claimed: the loop `for (int i = 1; i < windowSize; i++)` runs
`window - 1` times while the divisor is `window`. -/
theorem claim10_curvature_average (angleOf : ℚ → ℚ → ℚ → ℚ) (pts : List Pt)
    (index windowSize : ℤ) :
    calculateLocalCurvature angleOf pts index windowSize =
      ((List.range (windowSize.toNat - 1)).map
        (fun k => tripleDeviation angleOf pts index (Int.ofNat (k + 1)))).sum / windowSize :=
  calculateLocalCurvature_eq_sum angleOf pts index windowSize

/-- Supporting fact for the C10 counterexample: on the unit square, the code
curvature at index 0 with window 4 depends on the angle oracle only through
its value at the arguments `(0, 1, 1)` (every examined triple is a right
angle between unit legs), ruling out any dependence on how the `acos`-based
angle function is modelled away from that point. -/
theorem curvature_square_depends_only_on_right_angle (angleOf : ℚ → ℚ → ℚ → ℚ) :
    calculateLocalCurvature angleOf [((0 : ℚ), (0 : ℚ)), (1, 0), (1, 1), (0, 1)] 0 4
      = 3 * |angleOf 0 1 1 - 180| / 4 := by
  rw [calculateLocalCurvature_eq_sum]
  have h1 : tripleDeviation angleOf [((0 : ℚ), (0 : ℚ)), (1, 0), (1, 1), (0, 1)] 0
      (Int.ofNat 1) = |angleOf 0 1 1 - 180| := by
    with_unfolding_all rfl
  have h2 : tripleDeviation angleOf [((0 : ℚ), (0 : ℚ)), (1, 0), (1, 1), (0, 1)] 0
      (Int.ofNat 2) = |angleOf 0 1 1 - 180| := by
    with_unfolding_all rfl
  have h3 : tripleDeviation angleOf [((0 : ℚ), (0 : ℚ)), (1, 0), (1, 1), (0, 1)] 0
      (Int.ofNat 3) = |angleOf 0 1 1 - 180| := by
    with_unfolding_all rfl
  rw [show ((4 : ℤ).toNat - 1) = 3 from rfl]
  rw [show List.range 3 = [0, 1, 2] from rfl]
  simp only [List.map_cons, List.map_nil, List.sum_cons, List.sum_nil]
  rw [h1, h2, h3]
  ring

/-- Counterexample to C10 as stated: on the unit square with `index = 0`,
`window = 4`, every examined triple is a right angle with deviation 90 (the
oracle value 90 at `(0,1,1)` is the exact value of `acos(0)·180/π`), so the
claimed average over `window` triples is 90, while the code returns
`3·90/4 = 67.5` - it sums only `window - 1 = 3` triples but divides by 4. -/
theorem claim10_counterexample_window_divisor :
    calculateLocalCurvature (fun _ _ _ => 90)
      [((0 : ℚ), (0 : ℚ)), (1, 0), (1, 1), (0, 1)] 0 4 = 135 / 2 ∧
    specLocalCurvature (fun _ _ _ => 90)
      [((0 : ℚ), (0 : ℚ)), (1, 0), (1, 1), (0, 1)] 0 4 = 90 ∧
    (135 / 2 : ℚ) ≠ 90 := by
  refine ⟨by with_unfolding_all rfl, by with_unfolding_all rfl, ?_⟩
  intro h
  exact absurd h (by norm_num)

/-! ### Claim C3 - roomVertex::mergePolygons (roomGraph.cpp) -/

/-- The file-local `equalLineVertex` of roomGraph.cpp:656 used by
`mergePolygons`: exact coordinate equality, except that the origin `(0,0)`
matches nothing (including itself). -/
def eqLineVertexExact (a b : Pt) : Bool :=
  a.1 = b.1 ∧ a.2 = b.2 ∧ ¬(a.1 = 0 ∧ a.2 = 0)

/-- `check_redun_pair` (roomGraph.cpp:635): scan for the first undirected
duplicate of the new pair; erase it if found, else append the pair unless it
is a degenerate self-edge. -/
def check_redun_pair : List (Pt × Pt) → Pt × Pt → List (Pt × Pt)
  | [], np => if eqLineVertexExact np.1 np.2 then [] else [np]
  | e :: es, np =>
      if (eqLineVertexExact e.1 np.1 && eqLineVertexExact e.2 np.2) ||
         (eqLineVertexExact e.1 np.2 && eqLineVertexExact e.2 np.1) then es
      else e :: check_redun_pair es np

/-- The edge pairs contributed by one polygon fragment
(roomGraph.cpp:544-561): consecutive pairs `(p0,p1) … (p_{n-2},p_{n-1})`
followed by the closing pair `(p0, p_{n-1})`. -/
def fragmentPairs : List Pt → List (Pt × Pt)
  | [] => []
  | [_] => []
  | x :: y :: rest =>
      ((x :: y :: rest).zip (y :: rest)) ++ [(x, (y :: rest).getLast (List.cons_ne_nil y rest))]

/-- The duplicate-cancelling edge collection over all fragments
(roomGraph.cpp:542-562); fragments with fewer than 2 points are skipped. -/
def collectEdges (polygons : List (List Pt)) : List (Pt × Pt) :=
  polygons.foldl
    (fun edges ps =>
      if ps.length < 2 then edges
      else (fragmentPairs ps).foldl check_redun_pair edges)
    []

/-- The file-local `calc_poly_area` (roomGraph.cpp:623): NOT the shoelace
formula - each cyclic pair contributes `(x_prev * x_cur) * (y_prev - y_cur)`
(the product of the x-coordinates, where the trapezoid form of the shoelace
would use their sum), absolute value, halved. -/
def calc_poly_area (polygon : List Pt) : ℚ :=
  match polygon with
  | [] => 0
  | x :: xs =>
      let l := x :: xs
      let prevs := l.getLast (List.cons_ne_nil x xs) :: l.dropLast
      |((prevs.zip l).map (fun pc => (pc.1.1 * pc.2.1) * (pc.1.2 - pc.2.2))).sum| / 2

/-- The edge scan of the walk loop (roomGraph.cpp:574-589): first edge
touching the current tail (the `.first` test before the `.second` test),
returning the remaining edges and the new tail. -/
def findLink : List (Pt × Pt) → Pt → Option (List (Pt × Pt) × Pt)
  | [], _ => none
  | e :: es, t =>
      if eqLineVertexExact t e.1 then some (es, e.2)
      else if eqLineVertexExact t e.2 then some (es, e.1)
      else match findLink es t with
        | none => none
        | some (rest, t2) => some (e :: rest, t2)

/-- The loop-tracing `while` of `mergePolygons` (roomGraph.cpp:571-617).
On a link: push the tail, walk on, drop the used edge.  On no link: push
the tail, compare the traced loop's `calc_poly_area` against the running
maximum (strict improvement), restart from the last remaining edge without
consuming it.  When the edges run out the final loop is compared too.  Fuel
makes the recursion structural: every other iteration consumes an edge, so
`2·|edges|+2` suffices (the source itself loops forever when a restart tail
is the unmatchable origin point). -/
def mergeWalk : ℕ → List (Pt × Pt) → List Pt → Pt → List Pt → ℚ → List Pt
  | _, [], tmp, _, best, areaMax =>
      if areaMax < calc_poly_area tmp then tmp else best
  | 0, _ :: _, tmp, _, best, areaMax =>
      if areaMax < calc_poly_area tmp then tmp else best
  | fuel + 1, e :: es, tmp, tail, best, areaMax =>
      match findLink (e :: es) tail with
      | some (rest, tail2) => mergeWalk fuel rest (tmp ++ [tail]) tail2 best areaMax
      | none =>
          let tmp2 := tmp ++ [tail]
          let a := calc_poly_area tmp2
          let best2 := if areaMax < a then tmp2 else best
          let amax2 := if areaMax < a then a else areaMax
          let lastPair := (e :: es).getLast (List.cons_ne_nil e es)
          mergeWalk fuel (e :: es) [lastPair.1] lastPair.2 best2 amax2

/-- `roomVertex::mergePolygons` (roomGraph.cpp:532): with fewer than 2
fragments the first fragment is copied verbatim; otherwise the cancelled
edge set is traced into loops and the loop maximising `calc_poly_area` is
kept.  `prior` is the entry value of `this->polygon` (kept when no traced
loop improves on area 0); the `edges = []` case dereferences
`rbegin()` of an empty vector in the source (undefined) and keeps `prior`
here. -/
def mergePolygons (prior : List Pt) (polygons : List (List Pt)) : List Pt :=
  if polygons.length < 2 then polygons.headD []
  else
    match collectEdges polygons with
    | [] => prior
    | e :: es =>
        let fp := (e :: es).getLast (List.cons_ne_nil e es)
        mergeWalk (2 * (e :: es).length + 2) (e :: es) [fp.1] fp.2 prior 0

/-- Claim C3 evaluation at the failing input: two disjoint square fragments,
a 1x1 square at (100,100) and a 2x2 square at (2,1).  After cancellation the
edges form exactly two loops.  `mergePolygons` keeps the far 1x1 loop
(shoelace area 1) and discards the 2x2 loop (shoelace area 4), because the
file-local `calc_poly_area` it maximises is not the shoelace area: it scores
the two traced loops 201/2 and 12 respectively (its per-edge term multiplies
the x-coordinates instead of adding them), so a small loop far from the
origin outranks a large loop near it. -/
theorem claim3_mergePolygons_keeps_smaller_loop :
    mergePolygons []
      [[((100 : ℚ), (100 : ℚ)), (101, 100), (101, 101), (100, 101)],
       [((2 : ℚ), (1 : ℚ)), (4, 1), (4, 3), (2, 3)]]
      = [((100 : ℚ), (100 : ℚ)), (100, 101), (101, 101), (101, 100), (100, 100)] ∧
    calcPolyArea
      [((100 : ℚ), (100 : ℚ)), (100, 101), (101, 101), (101, 100), (100, 100)] = 1 ∧
    calcPolyArea [((2 : ℚ), (1 : ℚ)), (2, 3), (4, 3), (4, 1), (2, 1)] = 4 ∧
    calc_poly_area
      [((100 : ℚ), (100 : ℚ)), (100, 101), (101, 101), (101, 100), (100, 100)] = 201 / 2 ∧
    calc_poly_area [((2 : ℚ), (1 : ℚ)), (2, 3), (4, 3), (4, 1), (2, 1)] = 12 :=
  ⟨by with_unfolding_all rfl, by with_unfolding_all rfl, by with_unfolding_all rfl,
   by with_unfolding_all rfl, by with_unfolding_all rfl⟩

/-! ### The AreaGraph state model (roomGraph.h / roomGraph.cpp)

Vertices and passage edges are arena-allocated: the state holds total maps
from numeric ids (standing for the source's pointers) to records, plus the
`originSet` and `passageEList` containers and a fresh-id counter.  `delete`
only removes an id from its container; the arena keeps the last record (the
source's freed memory), which is never read back along the verified paths.
`std::set` fields (`neighbours`, and the removal sets of `prunning`) are
modelled as duplicate-free lists built by insert-if-absent; only their
membership is ever used by the theorems.  Unmodelled fields (`center`,
`st`/`ed`, `areaInnerPathes`/PPGraph bookkeeping, passage `position`,
`junction` and `line`) are never read by the claims under verification;
polygon fragments (`polygons`, a vector of pointers) are carried as ids. -/

/-- `RMG::roomVertex` (roomGraph.h:109), the fields the claims read. -/
structure RVert where
  roomId : ℤ
  parentV : Option ℕ
  neighbours : List ℕ
  passages : List ℕ
  polygon : List Pt
  polys : List ℕ
deriving DecidableEq

instance : Inhabited RVert :=
  ⟨{ roomId := -1, parentV := none, neighbours := [], passages := [],
     polygon := [], polys := [] }⟩

/-- `RMG::passageEdge` (roomGraph.h:172), the field the claims read. -/
structure PEdge where
  connectedAreas : List ℕ
deriving DecidableEq

/-- `RMG::AreaGraph` (roomGraph.h:37). -/
structure AG where
  verts : ℕ → RVert
  passes : ℕ → PEdge
  originSet : List ℕ
  passageEList : List ℕ
  nextV : ℕ

def getV (g : AG) (v : ℕ) : RVert := g.verts v

def setVert (g : AG) (v : ℕ) (r : RVert) : AG :=
  { g with verts := Function.update g.verts v r }

def modVert (g : AG) (v : ℕ) (f : RVert → RVert) : AG := setVert g v (f (getV g v))

def getP (g : AG) (p : ℕ) : PEdge := g.passes p

def setPass (g : AG) (p : ℕ) (e : PEdge) : AG :=
  { g with passes := Function.update g.passes p e }

/-- `std::set` insertion: append if absent. -/
def listInsert (l : List ℕ) (x : ℕ) : List ℕ := if x ∈ l then l else l ++ [x]

/-- `std::set` bulk insertion. -/
def listUnion (l : List ℕ) (xs : List ℕ) : List ℕ := xs.foldl listInsert l

/-- Total `connectedAreas` reference count of a vertex across the graph's
passage list (the claim C2 quantity). -/
def refs (g : AG) (v : ℕ) : ℕ :=
  (g.passageEList.map (fun p => (getP g p).connectedAreas.count v)).sum

/-! #### RoomProcessor::transferPassages (RoomProcessor.cpp:90) -/

/-- The `connectedAreas` index loop of `transferPassages`
(RoomProcessor.cpp:108-128): each `source` entry is dropped when `target`
occurs anywhere else in the (already rewritten) vector, else replaced by
`target`; other entries are kept.  `done` is the processed prefix. -/
def transferCasGo (src tgt : ℕ) : List ℕ → List ℕ → List ℕ
  | done, [] => done
  | done, w :: ws =>
      if w = src then
        if tgt ∈ done ∨ tgt ∈ ws then transferCasGo src tgt done ws
        else transferCasGo src tgt (done ++ [tgt]) ws
      else transferCasGo src tgt (done ++ [w]) ws

/-- `RoomProcessor::transferPassages` (RoomProcessor.cpp:90): for every
passage of `src`, add it to `tgt`'s list if absent and rewrite its
`connectedAreas`; finally clear `src`'s list. -/
def transferPassages (g : AG) (src tgt : ℕ) : AG :=
  let g1 := (getV g src).passages.foldl
    (fun gg p =>
      let gg1 := if p ∈ (getV gg tgt).passages then gg
                 else modVert gg tgt (fun r => { r with passages := r.passages ++ [p] })
      setPass gg1 p ⟨transferCasGo src tgt [] (getP gg1 p).connectedAreas⟩) g
  modVert g1 src (fun r => { r with passages := [] })

/-! #### RoomProcessor::removeDuplicatePolygons (RoomProcessor.cpp:21)

`calculatePolygonHash` hashes doubles through `std::hash` and
`arePolygonsEqual` compares square-root centroid distances; both are
abstracted as parameters `H` and `E`, and the theorems hold for all `H`
and `E`. -/

/-- Bucket insertion preserving first-seen key order and per-key order. -/
def bucketsInsert : List (ℕ × List ℕ) → ℕ → ℕ → List (ℕ × List ℕ)
  | [], k, v => [(k, [v])]
  | (k0, vs) :: rest, k, v =>
      if k0 = k then (k0, vs ++ [v]) :: rest
      else (k0, vs) :: bucketsInsert rest k v

/-- Insertion into a key-sorted bucket list. -/
def insertByKey (kv : ℕ × List ℕ) : List (ℕ × List ℕ) → List (ℕ × List ℕ)
  | [] => [kv]
  | x :: xs => if kv.1 < x.1 then kv :: x :: xs else x :: insertByKey kv xs

/-- Key-ascending ordering of the bucket map (`std::map<size_t, …>`
iterates in increasing key order; keys here are distinct). -/
def sortByKey (l : List (ℕ × List ℕ)) : List (ℕ × List ℕ) := l.foldr insertByKey []

/-- The hash-bucket map of RoomProcessor.cpp:28-42: vertices with empty
polygons are skipped; within a bucket the `originSet` order is kept. -/
def polygonBuckets (H : List Pt → ℕ) (g : AG) : List (ℕ × List ℕ) :=
  sortByKey
    ((g.originSet.filter (fun v => !(getV g v).polygon.isEmpty)).foldl
      (fun acc v => bucketsInsert acc (H (getV g v).polygon) v) [])

/-- The inner pair scan of RoomProcessor.cpp:57-76 at fixed `x`
(`vertices[i]`) over the later bucket members: on an equal pair, if `x` has
the larger roomId it is marked and transferred into `y` and the scan BREAKS;
else `y` is marked, transferred into `x`, and the scan continues. -/
def dedupScanJ (E : List Pt → List Pt → Bool) (x : ℕ) :
    AG → List ℕ → List ℕ → AG × List ℕ
  | g, tr, [] => (g, tr)
  | g, tr, y :: ys =>
      if E (getV g x).polygon (getV g y).polygon then
        if (getV g y).roomId < (getV g x).roomId then
          (transferPassages g x y, tr ++ [x])
        else
          dedupScanJ E x (transferPassages g y x) (tr ++ [y]) ys
      else dedupScanJ E x g tr ys

/-- The outer pair scan of RoomProcessor.cpp:57-77 over one bucket. -/
def dedupScanI (E : List Pt → List Pt → Bool) :
    AG → List ℕ → List ℕ → AG × List ℕ
  | g, tr, [] => (g, tr)
  | g, tr, x :: xs =>
      let st := dedupScanJ E x g tr xs
      dedupScanI E st.1 st.2 xs

/-- `RoomProcessor::removeDuplicatePolygons` (RoomProcessor.cpp:21):
bucket by hash, pairwise-verify inside buckets of size at least 2 (marking
and transferring as it goes), then erase every marked vertex from
`originSet` (the source also frees them). -/
def removeDuplicatePolygons (H : List Pt → ℕ) (E : List Pt → List Pt → Bool)
    (g : AG) : AG :=
  if g.originSet = [] then g
  else
    let st := (polygonBuckets H g).foldl
      (fun acc kb =>
        if kb.2.length ≤ 1 then acc else dedupScanI E acc.1 acc.2 kb.2)
      (g, [])
    { st.1 with originSet := st.1.originSet.filter (fun v => !(st.2.contains v)) }

/-! #### RoomProcessor::mergeSmallAdjacentRooms (RoomProcessor.cpp:136) -/

/-- `RoomProcessor::calculateRoomArea` (RoomProcessor.cpp:353): 0 for an
empty polygon, else the shoelace area in pixel units. -/
def calculateRoomArea (g : AG) (v : ℕ) : ℚ :=
  if (getV g v).polygon.isEmpty then 0 else calcPolyArea (getV g v).polygon

/-- `RoomProcessor::calculateRoomCenter` (RoomProcessor.cpp:363): the
coordinate mean, `(0,0)` for an empty polygon. -/
def calculateRoomCenter (g : AG) (v : ℕ) : Pt :=
  match (getV g v).polygon with
  | [] => (0, 0)
  | ps => (((ps.map Prod.fst).sum) / ps.length, ((ps.map Prod.snd).sum) / ps.length)

/-- The parameters and geometric oracles of the small-room merge: the
Euclidean center distance (`boost::geometry::distance`, a square root used
only inside the merge score) and boost's `convex_hull` output ring. -/
structure MSParams where
  minArea : ℚ
  maxMergeDistance : ℚ
  resolution : ℚ
  dist : Pt → Pt → ℚ
  hull : List Pt → List Pt

/-- Room area in square meters (`roomAreas` map of RoomProcessor.cpp:166). -/
def roomAreaM2 (P : MSParams) (g : AG) (v : ℕ) : ℚ :=
  calculateRoomArea g v * (P.resolution * P.resolution)

/-- Area-ascending insertion (the `std::sort` by `roomAreas` of
RoomProcessor.cpp:189; ties are broken by keeping the earlier element
first, one of the orders the unstable source sort permits). -/
def insertByArea (P : MSParams) (g : AG) (v : ℕ) : List ℕ → List ℕ
  | [] => [v]
  | x :: xs =>
      if roomAreaM2 P g v ≤ roomAreaM2 P g x then v :: x :: xs
      else x :: insertByArea P g v xs

def sortByArea (P : MSParams) (g : AG) (l : List ℕ) : List ℕ :=
  l.foldr (insertByArea P g) []

/-- Passage-based neighbour collection for a small room
(RoomProcessor.cpp:200-211): passages with exactly two connected areas, one
of them `s`; already-merged neighbours are skipped; the map entry for a
neighbour is overwritten by later passages (`std::map::operator[]`). -/
def assocPut (m : List (ℕ × Option ℕ)) (k : ℕ) (v : Option ℕ) : List (ℕ × Option ℕ) :=
  if m.any (fun kv => kv.1 = k) then
    m.map (fun kv => if kv.1 = k then (k, v) else kv)
  else m ++ [(k, v)]

def assocGet (m : List (ℕ × Option ℕ)) (k : ℕ) : Option ℕ :=
  match m.find? (fun kv => kv.1 = k) with
  | some kv => kv.2
  | none => none

def collectPassNeighbors (g : AG) (merged : List ℕ) (s : ℕ) :
    List ℕ × List (ℕ × Option ℕ) :=
  g.passageEList.foldl
    (fun acc p =>
      let cas := (getP g p).connectedAreas
      if cas.length ≠ 2 then acc
      else
        let nb? : Option ℕ :=
          if cas.getD 0 0 = s then some (cas.getD 1 0)
          else if cas.getD 1 0 = s then some (cas.getD 0 0)
          else none
        match nb? with
        | none => acc
        | some nb =>
            if nb ∈ merged then acc
            else (acc.1 ++ [nb], assocPut acc.2 nb (some p)))
    ([], [])

/-- Shared-vertex adjacency under `equalLineVertex`
(RoomProcessor.cpp:216-223). -/
def polygonAdjacent (g : AG) (a b : ℕ) : Bool :=
  (getV g a).polygon.any (fun pA => (getV g b).polygon.any (fun pB => pointsEqual pA pB))

/-- Fallback polygon-adjacency neighbour collection
(RoomProcessor.cpp:213-229); map entries carry no passage. -/
def collectPolyNeighbors (g : AG) (merged : List ℕ) (s : ℕ) :
    List ℕ × List (ℕ × Option ℕ) :=
  g.originSet.foldl
    (fun acc c =>
      if c = s ∨ c ∈ merged then acc
      else if polygonAdjacent g s c then (acc.1 ++ [c], assocPut acc.2 c none)
      else acc)
    ([], [])

/-- The best-neighbour scoring loop (RoomProcessor.cpp:230-247): score
`10·max(0,(maxPx-dist)/maxPx)` plus 5 when the neighbour is itself small,
strict improvement over the running best (initial score -1). -/
def msBestNeighbor (P : MSParams) (g : AG) (s : ℕ) (nbs : List ℕ)
    (nmap : List (ℕ × Option ℕ)) : Option ℕ × ℚ × Option ℕ :=
  nbs.foldl
    (fun acc nb =>
      let maxPx := P.maxMergeDistance / P.resolution
      let distPx := P.dist (calculateRoomCenter g s) (calculateRoomCenter g nb)
      let distFactor := max 0 ((maxPx - distPx) / maxPx)
      let score := distFactor * 10 +
        (if roomAreaM2 P g nb < P.minArea * (3 / 2) then 5 else 0)
      if acc.2.1 < score then (some nb, score, assocGet nmap nb) else acc)
    (none, -1, none)

/-- One small room's planning step (RoomProcessor.cpp:194-262), threading
`(mergedRooms, passagesToRemove, mergeOperations)`. -/
def msPlanStep (P : MSParams) (g : AG) (st : List ℕ × List ℕ × List (ℕ × ℕ))
    (s : ℕ) : List ℕ × List ℕ × List (ℕ × ℕ) :=
  let merged := st.1
  if s ∈ merged then st
  else
    let pn := collectPassNeighbors g merged s
    let nn := if pn.1 = [] then collectPolyNeighbors g merged s else pn
    let best := msBestNeighbor P g s nn.1 nn.2
    match best.1 with
    | none => st
    | some nb =>
        if 0 < best.2.1 then
          (merged ++ [s],
           (match best.2.2 with
            | some p => listInsert st.2.1 p
            | none => st.2.1),
           st.2.2 ++ [(s, nb)])
        else st

/-- One merge execution (RoomProcessor.cpp:267-292): replace the target's
polygon by the hull of both point sets (small room's points first),
transfer the passages, erase the absorbed room from `originSet`. -/
def msExec (P : MSParams) (g : AG) (op : ℕ × ℕ) : AG :=
  let g1 := modVert g op.2 (fun r =>
    { r with polygon := P.hull ((getV g op.1).polygon ++ (getV g op.2).polygon) })
  let g2 := transferPassages g1 op.1 op.2
  { g2 with originSet := g2.originSet.filter (fun v => v ≠ op.1) }

/-- One full pass of `mergeSmallAdjacentRooms` (RoomProcessor.cpp:136-301):
early returns on an empty graph or no small rooms, else plan smallest-first
and execute, finally deleting the recorded passages.  Returns the new state
and the executed merge operations. -/
def msPass (P : MSParams) (g : AG) : AG × List (ℕ × ℕ) :=
  if g.originSet = [] then (g, [])
  else
    let smalls := g.originSet.filter
      (fun v => calculateRoomArea g v < P.minArea / (P.resolution * P.resolution))
    if smalls = [] then (g, [])
    else
      let plan := (sortByArea P g smalls).foldl (msPlanStep P g) ([], [], [])
      let g1 := plan.2.2.foldl (msExec P) g
      let g2 := { g1 with
        passageEList := g1.passageEList.filter (fun p => !(plan.2.1.contains p)) }
      (g2, plan.2.2)

/-- The recursion of `mergeSmallAdjacentRooms` (RoomProcessor.cpp:304) on an
explicit fuel counter (the source recursion is unbounded; the termination
theorem shows the wrapper's fuel is never exhausted). -/
def mergeSmallFuel (P : MSParams) : ℕ → AG → AG
  | 0, g => g
  | fuel + 1, g =>
      let st := msPass P g
      if st.2 = [] then st.1 else mergeSmallFuel P fuel st.1

/-- `RoomProcessor::mergeSmallAdjacentRooms` (RoomProcessor.cpp:136):
fixed-point iteration of `msPass`. -/
def mergeSmallAdjacentRooms (P : MSParams) (g : AG) : AG :=
  mergeSmallFuel P (g.originSet.length + 1) g

/-! #### AreaGraph::mergeAreas (roomGraph.cpp:51) -/

/-- The `connectedAreas` rewrite of roomGraph.cpp:111-125: the first entry
whose CURRENT roomId equals the group id is replaced by the aggregate `b`,
later such entries are erased, others are kept. -/
def rewriteCas (g : AG) (rid : ℤ) (b : ℕ) : List ℕ → Bool → List ℕ
  | [], _ => []
  | w :: ws, first =>
      if (getV g w).roomId = rid then
        if first then b :: rewriteCas g rid b ws false
        else rewriteCas g rid b ws false
      else w :: rewriteCas g rid b ws first

/-- One passage of one group member (roomGraph.cpp:95-133): a passage all of
whose connected areas carry the group id is interior and removed from
`passageEList` (`std::list::remove`); otherwise its areas are rewritten
(the single-entry branch of roomGraph.cpp:127 overwrites the lone entry)
and the passage is pushed onto the aggregate's list. -/
def mergeAreasPassage (rid : ℤ) (b : ℕ) (g : AG) (p : ℕ) : AG :=
  let cas := (getP g p).connectedAreas
  if cas.all (fun w => decide ((getV g w).roomId = rid)) then
    { g with passageEList := g.passageEList.filter (fun q => q ≠ p) }
  else
    let g1 :=
      if 1 < cas.length then setPass g p ⟨rewriteCas g rid b cas true⟩
      else setPass g p ⟨cas.map (fun _ => b)⟩
    modVert g1 b (fun r => { r with passages := r.passages ++ [p] })

def rtmFind : List (ℤ × ℕ × List ℕ) → ℤ → Option ℕ
  | [], _ => none
  | (r, b, _) :: rest, rid => if r = rid then some b else rtmFind rest rid

def rtmAppend : List (ℤ × ℕ × List ℕ) → ℤ → ℕ → List (ℤ × ℕ × List ℕ)
  | [], _, _ => []
  | (r, b, ms) :: rest, rid, m =>
      if r = rid then (r, b, ms ++ [m]) :: rest else (r, b, ms) :: rtmAppend rest rid m

/-- Phase 1 of `mergeAreas` for one vertex (roomGraph.cpp:61-135): skip
unassigned/tombstoned ids; find or freshly allocate the group aggregate
(which copies `center`/`st`/`ed`, not modelled, and starts with empty
containers); record the member; append the member's polygon fragments to
the aggregate; process the member's passages in order. -/
def mergeAreasVertex (st : AG × List (ℤ × ℕ × List ℕ)) (m : ℕ) :
    AG × List (ℤ × ℕ × List ℕ) :=
  let g := st.1
  let rtm := st.2
  let rid := (getV g m).roomId
  if rid = -1 ∨ rid = -2 then (g, rtm)
  else
    match rtmFind rtm rid with
    | none =>
        let b := g.nextV
        let g0 : AG := { g with
          verts := Function.update g.verts b
            { roomId := rid, parentV := none, neighbours := [], passages := [],
              polygon := [], polys := [] },
          nextV := b + 1 }
        let g1 := modVert g0 b (fun r => { r with polys := r.polys ++ (getV g0 m).polys })
        let g2 := (getV g1 m).passages.foldl (mergeAreasPassage rid b) g1
        (g2, rtm ++ [(rid, b, [m])])
    | some b =>
        let g1 := modVert g b (fun r => { r with polys := r.polys ++ (getV g m).polys })
        let g2 := (getV g1 m).passages.foldl (mergeAreasPassage rid b) g1
        (g2, rtmAppend rtm rid m)

def insertRtm (kv : ℤ × ℕ × List ℕ) : List (ℤ × ℕ × List ℕ) → List (ℤ × ℕ × List ℕ)
  | [] => [kv]
  | x :: xs => if kv.1 < x.1 then kv :: x :: xs else x :: insertRtm kv xs

/-- The `roomToMerge` map in `std::map` iteration order (ascending roomId;
group ids are distinct). -/
def sortRtm (l : List (ℤ × ℕ × List ℕ)) : List (ℤ × ℕ × List ℕ) := l.foldr insertRtm []

/-- Phase 2 of `mergeAreas` (roomGraph.cpp:136-150): per group in key
order, erase each member from `originSet` (the source's single-iterator
`erase(remove(…))` deletes exactly the first occurrence) and push the
aggregate at the back; the member objects are freed (arena-kept here). -/
def mergeAreasFinish (g : AG) (rtm : List (ℤ × ℕ × List ℕ)) : AG :=
  (sortRtm rtm).foldl
    (fun g2 grp =>
      { g2 with originSet := (grp.2.2.foldl (fun os mm => os.erase mm) g2.originSet) ++ [grp.2.1] })
    g

/-- `AreaGraph::mergeAreas` (roomGraph.cpp:51). -/
def mergeAreas (g : AG) : AG :=
  let st := g.originSet.foldl mergeAreasVertex (g, [])
  mergeAreasFinish st.1 st.2

/-! #### AreaGraph::mergeRoomCell (roomGraph.cpp:158) -/

/-- The forward scan of roomGraph.cpp:181-191 collecting the remaining
vertices of the group and tombstoning them as it goes. -/
def mrcCollect (rid : ℤ) : AG → List ℕ → AG × List ℕ
  | g, [] => (g, [])
  | g, w :: ws =>
      let r := (getV g w).roomId
      if r = -1 ∨ r = -2 then mrcCollect rid g ws
      else if r = rid then
        let g1 := modVert g w (fun rv => { rv with roomId := -2 })
        let st := mrcCollect rid g1 ws
        (st.1, w :: st.2)
      else mrcCollect rid g ws

/-- The outer loop of `mergeRoomCell` (roomGraph.cpp:166-215): per
not-yet-tombstoned group leader, tombstone the leader, collect the rest of
the group, build the fresh aggregate (group roomId; neighbours unioned over
the members in order; polygon fragments prepended per member; empty passage
list - `mergeRoomCell` never touches passages) and point every member's
`parentV` at it.  The new nodes enter `originSet` only after the loop. -/
def mrcOuter : AG → List ℕ → List ℕ → AG × List ℕ
  | g, newNodes, [] => (g, newNodes)
  | g, newNodes, m :: rest =>
      let rid := (getV g m).roomId
      if rid = -1 ∨ rid = -2 then mrcOuter g newNodes rest
      else
        let g0 := modVert g m (fun rv => { rv with roomId := -2 })
        let cm := mrcCollect rid g0 rest
        let members := m :: cm.2
        let b := cm.1.nextV
        let nb : RVert :=
          { roomId := rid, parentV := none,
            neighbours := members.foldl (fun acc w => listUnion acc (getV cm.1 w).neighbours) [],
            passages := [],
            polygon := [],
            polys := members.foldl (fun acc w => (getV cm.1 w).polys ++ acc) [] }
        let g2 : AG := { cm.1 with verts := Function.update cm.1.verts b nb, nextV := b + 1 }
        let g3 := members.foldl (fun gg w => modVert gg w (fun rv => { rv with parentV := some b })) g2
        mrcOuter g3 (newNodes ++ [b]) rest

/-- `AreaGraph::mergeRoomCell` (roomGraph.cpp:158). -/
def mergeRoomCell (g : AG) : AG :=
  let st := mrcOuter g [] g.originSet
  { st.1 with originSet := st.1.originSet ++ st.2 }

/-! #### AreaGraph::prunning (roomGraph.cpp:220) -/

/-- One vertex of the prunning loop (roomGraph.cpp:228-250): tombstoned
neighbours are removed and their `parentV` inserted instead (a null parent
- never produced by the analysed pipeline - has no modelled insertion), and
they are accumulated into the global removal set. -/
def pruneStep (st : AG × List ℕ) (u : ℕ) : AG × List ℕ :=
  let g := st.1
  let ns := (getV g u).neighbours
  let bad := ns.filter (fun w => decide ((getV g w).roomId = -2))
  let keep := ns.filter (fun w => !(decide ((getV g w).roomId = -2)))
  let ins := bad.foldl
    (fun acc w =>
      match (getV g w).parentV with
      | some pv => listInsert acc pv
      | none => acc) []
  (modVert g u (fun rv => { rv with neighbours := listUnion keep ins }),
   listUnion st.2 bad)

/-- `AreaGraph::prunning` (roomGraph.cpp:220): the neighbour-redirect pass
followed by erasure of the accumulated tombstoned vertices from
`originSet`. -/
def prunning (g : AG) : AG :=
  let st := g.originSet.foldl pruneStep (g, [])
  { st.1 with originSet := st.1.originSet.filter (fun v => !(st.2.contains v)) }

/-! #### OsmAGExporter: per-graph refinement wrappers and phase order -/

/-- `OsmAGExporter::simplifyPolygons` (OsmAGExporter.cpp:16): map
`simplifyPolygon` over every room polygon. -/
def simplifyPolygons (circ : List Pt → Bool) (g : AG) (epsilon : ℚ)
    (preserve : List Pt) : AG :=
  g.originSet.foldl
    (fun gg v => modVert gg v (fun r =>
      { r with polygon := simplifyPolygon circ r.polygon epsilon preserve })) g

/-- `OsmAGExporter::removeSpikesFromPolygons` (OsmAGExporter.cpp:40): map
`removeSpikesFromPolygon` over every room polygon. -/
def removeSpikesFromPolygons (circ : List Pt → Bool) (angleOf : ℚ → ℚ → ℚ → ℚ)
    (g : AG) (angleThreshold distanceThreshold : ℚ) (preserve : List Pt) : AG :=
  g.originSet.foldl
    (fun gg v => modVert gg v (fun r =>
      { r with polygon := removeSpikesFromPolygon circ angleOf r.polygon
                            angleThreshold distanceThreshold preserve })) g

/-- The refinement phases of `OsmAGExporter::exportToOsmAG` in source
order. -/
inductive ExpPhase
  | dedupPhase
  | smallMergePhase
  | collectPhase
  | optimizePhase
  | simplifyPhase
  | spikePhase
deriving DecidableEq

/-- Parameters of `exportToOsmAG`: the configuration flags and thresholds,
the dedup and small-merge parameters, and oracles for the two
PassageProcessor calls (`collectPassagePoints` returns the passage endpoint
pairs with their two rooms and performs no graph mutation relevant to the
phase order; `optimizeRoomPolygonsForPassages` rewrites room polygons). -/
structure ExportParams where
  H : List Pt → ℕ
  E : List Pt → List Pt → Bool
  ms : MSParams
  mergeEnabled : Bool
  simplifyEnabled : Bool
  spikeEnabled : Bool
  simplifyTolerance : ℚ
  spikeAngleThreshold : ℚ
  spikeDistanceThreshold : ℚ
  circ : List Pt → Bool
  angleOf : ℚ → ℚ → ℚ → ℚ
  collectPassagePoints : AG → List ((Pt × Pt) × (ℕ × ℕ))
  optimizeRoomPolygonsForPassages : AG → List ((Pt × Pt) × (ℕ × ℕ)) → AG

/-- The graph-refinement orchestration of `OsmAGExporter::exportToOsmAG`
(OsmAGExporter.cpp:65-236), with the phase trace recorded in execution
order: dedup (line 79); the parameter-gated small-room merge (lines
91-104); `collectPassagePoints` (line 203); `optimizeRoomPolygonsForPassages`
(line 206); the gated simplification with the collected passage endpoints
as preserve points (lines 212-226); the gated spike removal (lines
229-236).  Node and way emission follow these phases. -/
def exportToOsmAGPhases (P : ExportParams) (g : AG) : AG × List ExpPhase :=
  let g1 := removeDuplicatePolygons P.H P.E g
  let s2 :=
    if P.mergeEnabled then (mergeSmallAdjacentRooms P.ms g1, [ExpPhase.smallMergePhase])
    else (g1, [])
  let pass := P.collectPassagePoints s2.1
  let g3 := P.optimizeRoomPolygonsForPassages s2.1 pass
  let preserve := pass.foldl (fun acc pr => acc ++ [pr.1.1, pr.1.2]) []
  let s4 :=
    if P.simplifyEnabled
    then (simplifyPolygons P.circ g3 P.simplifyTolerance preserve, [ExpPhase.simplifyPhase])
    else (g3, [])
  let s5 :=
    if P.spikeEnabled
    then (removeSpikesFromPolygons P.circ P.angleOf s4.1 P.spikeAngleThreshold
        P.spikeDistanceThreshold preserve, [ExpPhase.spikePhase])
    else (s4.1, [])
  (s5.1, [ExpPhase.dedupPhase] ++ s2.2 ++ [ExpPhase.collectPhase, ExpPhase.optimizePhase]
    ++ s4.2 ++ s5.2)

/-! ### Claim C1 - exportToOsmAG phase order -/

/-- Concrete parameters for the C1 instances: all three optional phases
enabled, trivial oracles. -/
def trivialExportParams : ExportParams :=
  { H := fun _ => 0
    E := fun _ _ => false
    ms := { minArea := 4, maxMergeDistance := 3 / 2, resolution := 11 / 250,
            dist := fun _ _ => 0, hull := fun l => l }
    mergeEnabled := true
    simplifyEnabled := true
    spikeEnabled := true
    simplifyTolerance := 1 / 20
    spikeAngleThreshold := 60
    spikeDistanceThreshold := 3 / 10
    circ := fun _ => false
    angleOf := fun _ _ _ => 90
    collectPassagePoints := fun _ => []
    optimizeRoomPolygonsForPassages := fun g _ => g }

/-- The empty graph. -/
def emptyAG : AG :=
  { verts := fun _ => default, passes := fun _ => ⟨[]⟩,
    originSet := [], passageEList := [], nextV := 0 }

/-- Counterexample to C1 as stated: with every optional phase enabled the
executed phase order puts `mergeSmallAdjacentRooms` directly after
`removeDuplicatePolygons` (OsmAGExporter.cpp:79 and 97/103) and BEFORE
`collectPassagePoints` (line 203) - not after the spike removal as the
claim puts it. -/
theorem claim1_counterexample_merge_runs_first :
    (exportToOsmAGPhases trivialExportParams emptyAG).2
      = [ExpPhase.dedupPhase, ExpPhase.smallMergePhase, ExpPhase.collectPhase,
         ExpPhase.optimizePhase, ExpPhase.simplifyPhase, ExpPhase.spikePhase] ∧
    (exportToOsmAGPhases trivialExportParams emptyAG).2
      ≠ [ExpPhase.dedupPhase, ExpPhase.collectPhase, ExpPhase.optimizePhase,
         ExpPhase.simplifyPhase, ExpPhase.spikePhase, ExpPhase.smallMergePhase] := by
  constructor
  · with_unfolding_all rfl
  · intro hcon
    have h1 : (exportToOsmAGPhases trivialExportParams emptyAG).2
        = [ExpPhase.dedupPhase, ExpPhase.smallMergePhase, ExpPhase.collectPhase,
           ExpPhase.optimizePhase, ExpPhase.simplifyPhase, ExpPhase.spikePhase] := by
      with_unfolding_all rfl
    rw [h1] at hcon
    exact absurd hcon (by simp)

/-- Claim C1, amended: `exportToOsmAG` executes `removeDuplicatePolygons`
first, then (when enabled) `mergeSmallAdjacentRooms`, then
`collectPassagePoints`, then `optimizeRoomPolygonsForPassages`, then the
optional `simplifyPolygons`, then the optional `removeSpikesFromPolygons`,
before emitting nodes and ways: the small-room merge runs right after the
dedup and before all passage processing and polygon refinement. -/
theorem claim1_export_phase_order (P : ExportParams) (g : AG) :
    ((exportToOsmAGPhases P g).2).head? = some ExpPhase.dedupPhase ∧
    (P.mergeEnabled = true →
      ((exportToOsmAGPhases P g).2).indexOf ExpPhase.smallMergePhase <
        ((exportToOsmAGPhases P g).2).indexOf ExpPhase.collectPhase) ∧
    ((exportToOsmAGPhases P g).2).indexOf ExpPhase.collectPhase <
      ((exportToOsmAGPhases P g).2).indexOf ExpPhase.optimizePhase ∧
    (P.simplifyEnabled = true →
      ((exportToOsmAGPhases P g).2).indexOf ExpPhase.optimizePhase <
        ((exportToOsmAGPhases P g).2).indexOf ExpPhase.simplifyPhase) ∧
    (P.spikeEnabled = true →
      ((exportToOsmAGPhases P g).2).indexOf ExpPhase.optimizePhase <
        ((exportToOsmAGPhases P g).2).indexOf ExpPhase.spikePhase) ∧
    (P.simplifyEnabled = true → P.spikeEnabled = true →
      ((exportToOsmAGPhases P g).2).indexOf ExpPhase.simplifyPhase <
        ((exportToOsmAGPhases P g).2).indexOf ExpPhase.spikePhase) := by
  cases hm : P.mergeEnabled <;> cases hs : P.simplifyEnabled <;> cases hk : P.spikeEnabled <;>
    simp only [exportToOsmAGPhases, hm, hs, hk, Bool.false_eq_true, if_true, if_false,
      Bool.true_eq_false] <;>
    decide

/-- Witness for C1's amended order at the all-enabled parameters. -/
theorem claim1_export_phase_witness :
    trivialExportParams.mergeEnabled = true ∧
    ((exportToOsmAGPhases trivialExportParams emptyAG).2).indexOf
        ExpPhase.smallMergePhase <
      ((exportToOsmAGPhases trivialExportParams emptyAG).2).indexOf
        ExpPhase.collectPhase :=
  ⟨rfl, (claim1_export_phase_order trivialExportParams emptyAG).2.1 rfl⟩

/-! ### Claim C4 - prunning and unreferenced tombstones -/

theorem mem_listInsert (l : List ℕ) (x v : ℕ) :
    v ∈ listInsert l x ↔ v ∈ l ∨ v = x := by
  unfold listInsert
  by_cases hx : x ∈ l
  · simp only [if_pos hx]
    constructor
    · exact fun h => Or.inl h
    · rintro (h | rfl)
      · exact h
      · exact hx
  · simp [if_neg hx]

theorem mem_listUnion (l xs : List ℕ) (v : ℕ) :
    v ∈ listUnion l xs ↔ v ∈ l ∨ v ∈ xs := by
  induction xs generalizing l with
  | nil => simp [listUnion]
  | cons x t ih =>
    show v ∈ listUnion (listInsert l x) t ↔ _
    rw [ih, mem_listInsert]
    simp only [List.mem_cons]
    tauto

theorem containsIffMem' (l : List ℕ) (v : ℕ) : l.contains v = false ↔ v ∉ l := by
  rw [← Bool.not_eq_true, not_iff_not]
  exact List.elem_iff

theorem pruneStep_getV_roomId (st : AG × List ℕ) (u w : ℕ) :
    (getV (pruneStep st u).1 w).roomId = (getV st.1 w).roomId := by
  unfold pruneStep modVert setVert getV
  by_cases hw : w = u
  · subst hw; simp [Function.update_same]
  · simp [Function.update_noteq hw]

theorem pruneStep_getV_of_ne (st : AG × List ℕ) (u w : ℕ) (h : w ≠ u) :
    getV (pruneStep st u).1 w = getV st.1 w := by
  unfold pruneStep modVert setVert getV
  simp [Function.update_noteq h]

theorem pruneStep_originSet (st : AG × List ℕ) (u : ℕ) :
    (pruneStep st u).1.originSet = st.1.originSet := by
  unfold pruneStep modVert setVert
  rfl

theorem pruneStep_rem (st : AG × List ℕ) (u v : ℕ) :
    v ∈ (pruneStep st u).2 ↔
      v ∈ st.2 ∨ (v ∈ (getV st.1 u).neighbours ∧ (getV st.1 v).roomId = -2) := by
  show v ∈ listUnion st.2 _ ↔ _
  rw [mem_listUnion, List.mem_filter]
  simp only [decide_eq_true_eq]

/-- The prunning fold: `originSet` is untouched, no `roomId` changes, and
the accumulated removal set is exactly the tombstoned vertices appearing in
the (initial) neighbour set of some processed vertex. -/
theorem pruneFold_spec (g : AG) : ∀ (l : List ℕ) (g' : AG) (rem : List ℕ),
    (∀ w ∈ l, (getV g' w).neighbours = (getV g w).neighbours) →
    (∀ w, (getV g' w).roomId = (getV g w).roomId) →
    l.Nodup →
    (l.foldl pruneStep (g', rem)).1.originSet = g'.originSet ∧
    (∀ v, v ∈ (l.foldl pruneStep (g', rem)).2 ↔
      v ∈ rem ∨ ∃ u ∈ l, v ∈ (getV g u).neighbours ∧ (getV g v).roomId = -2) := by
  intro l
  induction l with
  | nil =>
    intro g' rem _ _ _
    exact ⟨rfl, by simp⟩
  | cons u t ih =>
    intro g' rem hnb hrid hnd
    have hnd2 : t.Nodup := (List.nodup_cons.mp hnd).2
    have hu_not_t : u ∉ t := (List.nodup_cons.mp hnd).1
    have hnb2 : ∀ w ∈ t, (getV (pruneStep (g', rem) u).1 w).neighbours
        = (getV g w).neighbours := by
      intro w hw
      rw [pruneStep_getV_of_ne (g', rem) u w (by rintro rfl; exact hu_not_t hw)]
      exact hnb w (List.mem_cons_of_mem u hw)
    have hrid2 : ∀ w, (getV (pruneStep (g', rem) u).1 w).roomId = (getV g w).roomId := by
      intro w
      rw [pruneStep_getV_roomId]
      exact hrid w
    obtain ⟨hos, hrem⟩ := ih (pruneStep (g', rem) u).1 (pruneStep (g', rem) u).2 hnb2 hrid2 hnd2
    constructor
    · show (t.foldl pruneStep (pruneStep (g', rem) u)).1.originSet = g'.originSet
      have : (t.foldl pruneStep ((pruneStep (g', rem) u).1, (pruneStep (g', rem) u).2)).1.originSet
          = (pruneStep (g', rem) u).1.originSet := hos
      rw [show ((pruneStep (g', rem) u).1, (pruneStep (g', rem) u).2) = pruneStep (g', rem) u
          from rfl] at this
      rw [this, pruneStep_originSet]
    · intro v
      show v ∈ (t.foldl pruneStep (pruneStep (g', rem) u)).2 ↔ _
      have hstep := hrem v
      rw [show ((pruneStep (g', rem) u).1, (pruneStep (g', rem) u).2) = pruneStep (g', rem) u
          from rfl] at hstep
      rw [hstep, pruneStep_rem]
      have hnbu : (getV g' u).neighbours = (getV g u).neighbours :=
        hnb u (List.mem_cons_self u t)
      rw [hnbu, hrid v]
      constructor
      · rintro ((h | h) | ⟨w, hw, hh⟩)
        · exact Or.inl h
        · exact Or.inr ⟨u, List.mem_cons_self u t, h⟩
        · exact Or.inr ⟨w, List.mem_cons_of_mem u hw, hh⟩
      · rintro (h | ⟨w, hw, hh⟩)
        · exact Or.inl (Or.inl h)
        · rcases List.mem_cons.mp hw with rfl | hw2
          · exact Or.inl (Or.inr hh)
          · exact Or.inr ⟨w, hw2, hh⟩

/-- Claim C4, amended: after `prunning()` returns, `originSet` contains no
vertex with roomId -2 THAT WAS REFERENCED AS A NEIGHBOUR of some vertex of
the collection; a vertex v survives iff it was present and is not a
tombstoned vertex listed in some vertex's neighbour set.  Tombstoned
vertices that no neighbour set references are NOT removed (the removal set
of roomGraph.cpp:233-237 is populated only while scanning neighbour sets) -
see the counterexample. -/
theorem claim4_prunning_removes_only_referenced_tombstones (g : AG)
    (h : g.originSet.Nodup) (v : ℕ) :
    v ∈ (prunning g).originSet ↔
      v ∈ g.originSet ∧
        ¬((getV g v).roomId = -2 ∧ ∃ u ∈ g.originSet, v ∈ (getV g u).neighbours) := by
  obtain ⟨hos, hrem⟩ := pruneFold_spec g g.originSet g [] (fun _ _ => rfl) (fun _ => rfl) h
  have hrem' := hrem v
  simp only [List.not_mem_nil, false_or] at hrem'
  show v ∈ ((g.originSet.foldl pruneStep (g, [])).1.originSet.filter
      (fun x => !((g.originSet.foldl pruneStep (g, [])).2.contains x))) ↔ _
  rw [List.mem_filter, hos]
  constructor
  · rintro ⟨hv, hnc⟩
    refine ⟨hv, ?_⟩
    rintro ⟨hrid, u, hu, hnb⟩
    have hin : v ∈ (g.originSet.foldl pruneStep (g, [])).2 :=
      hrem'.mpr ⟨u, hu, hnb, hrid⟩
    rw [Bool.not_eq_true', containsIffMem'] at hnc
    exact hnc hin
  · rintro ⟨hv, hno⟩
    refine ⟨hv, ?_⟩
    rw [Bool.not_eq_true', containsIffMem']
    intro hin
    obtain ⟨u, hu, hnb, hrid⟩ := hrem'.mp hin
    exact hno ⟨hrid, u, hu, hnb⟩

/-- A room vertex with given roomId and passage list and everything else
empty (used for the concrete merge-pipeline graphs). -/
def mkRoomVert (rid : ℤ) (ps : List ℕ) : RVert :=
  { roomId := rid, parentV := none, neighbours := [], passages := ps,
    polygon := [], polys := [] }

/-- A one-room graph: a single polygon cell of room 0, no passages.  The
merge phases replace vertex 0 by aggregate vertices and tombstone the
mergeAreas aggregate, but nothing ever lists it as a neighbour. -/
def c4Graph : AG :=
  { verts := fun v => if v = 0 then mkRoomVert 0 [] else default,
    passes := fun _ => ⟨[]⟩, originSet := [0], passageEList := [], nextV := 1 }

/-- The graph after the three merge phases of the C4 pipeline. -/
def c4Final : AG := prunning (mergeRoomCell (mergeAreas c4Graph))

/-- Counterexample to C4 as stated: running mergeAreas, mergeRoomCell and
prunning on the one-room graph leaves vertex 1 - the mergeAreas aggregate,
tombstoned to roomId -2 by mergeRoomCell (roomGraph.cpp:171) - inside the
final originSet, because prunning's toDelete set (roomGraph.cpp:233-237) is
populated only from neighbour references and nothing references vertex 1. -/
theorem claim4_counterexample_unreferenced_tombstone :
    (getV c4Final 1).roomId = -2 ∧ 1 ∈ c4Final.originSet :=
  ⟨by with_unfolding_all rfl, of_decide_eq_true (by with_unfolding_all rfl)⟩

/-- Witness for the amended C4 characterisation: on the one-room graph the
live room vertex 0 (roomId 0) survives prunning. -/
theorem claim4_prunning_witness :
    c4Graph.originSet.Nodup ∧ 0 ∈ (prunning c4Graph).originSet := by
  have hnd : c4Graph.originSet.Nodup := of_decide_eq_true (by with_unfolding_all rfl)
  refine ⟨hnd, (claim4_prunning_removes_only_referenced_tombstones c4Graph hnd 0).mpr
    ⟨?_, ?_⟩⟩
  · exact of_decide_eq_true (by with_unfolding_all rfl)
  · rintro ⟨hrid, -⟩
    have h0 : (getV c4Graph 0).roomId = 0 := by with_unfolding_all rfl
    rw [h0] at hrid
    exact absurd hrid (by decide)

/-! ### Claim C2 - passage reference counts after the merge phases -/

/-- A junction graph: passage 0 connects three polygon cells, two of room 1
and one of room 2.  When mergeAreas groups the two room-1 cells into one
aggregate, it rewrites the passage's connectedAreas to mention the
aggregate once, but pushes the passage onto the aggregate's own passages
list once per original cell (roomGraph.cpp:107/121 inside the loop over
roomVertex->passages of every merged cell). -/
def c2Graph : AG :=
  { verts := fun v =>
      if v = 0 then mkRoomVert 1 [0]
      else if v = 1 then mkRoomVert 1 [0]
      else if v = 2 then mkRoomVert 2 [0]
      else default,
    passes := fun _ => ⟨[0, 1, 2]⟩,
    originSet := [0, 1, 2], passageEList := [0], nextV := 3 }

/-- The junction graph after the three merge phases. -/
def c2Final : AG := prunning (mergeRoomCell (mergeAreas c2Graph))

/-- Counterexample to C2 as stated: after mergeAreas + mergeRoomCell +
prunning on the junction graph, surviving vertex 3 (the room-1 aggregate)
has passages = [0, 0] - passage 0 twice, so passages.size() = 2 - while the
passage edges' connectedAreas lists reference vertex 3 only once in total:
the claimed count equality and duplicate-freeness both fail. -/
theorem claim2_counterexample_duplicate_passage :
    3 ∈ c2Final.originSet ∧
    (getV c2Final 3).passages = [0, 0] ∧
    refs c2Final 3 = 1 ∧
    ¬ ((getV c2Final 3).passages).Nodup :=
  ⟨of_decide_eq_true (by with_unfolding_all rfl),
   by with_unfolding_all rfl,
   by with_unfolding_all rfl,
   of_decide_eq_true (by with_unfolding_all rfl)⟩

/-! ### Claim C9 - termination of the small-room merge recursion -/

theorem foldl_originSet {α : Type} (f : AG → α → AG)
    (hf : ∀ gg a, (f gg a).originSet = gg.originSet) :
    ∀ (l : List α) (gg : AG), (l.foldl f gg).originSet = gg.originSet := by
  intro l
  induction l with
  | nil => intro gg; rfl
  | cons a t ih => intro gg; rw [List.foldl_cons, ih, hf]

theorem transferPassages_originSet (g : AG) (s t : ℕ) :
    (transferPassages g s t).originSet = g.originSet := by
  show ((getV g s).passages.foldl _ g).originSet = g.originSet
  refine foldl_originSet _ (fun gg p => ?_) _ g
  by_cases hc : p ∈ (getV gg t).passages
  · simp only [if_pos hc]
    rfl
  · simp only [if_neg hc]
    rfl

theorem msExec_originSet (P : MSParams) (g : AG) (op : ℕ × ℕ) :
    (msExec P g op).originSet = g.originSet.filter (fun v => v ≠ op.1) := by
  show ((transferPassages _ op.1 op.2).originSet.filter _) = _
  rw [transferPassages_originSet]
  rfl

theorem filter_ne_length (l : List ℕ) (a : ℕ) (hnd : l.Nodup) (ha : a ∈ l) :
    (l.filter (fun v => v ≠ a)).length + 1 = l.length := by
  induction l with
  | nil => cases ha
  | cons x t ih =>
    have hxt : x ∉ t := (List.nodup_cons.mp hnd).1
    have hndt : t.Nodup := (List.nodup_cons.mp hnd).2
    rcases List.mem_cons.mp ha with rfl | hat
    · have hsame : t.filter (fun v => v ≠ a) = t :=
        List.filter_eq_self.mpr (fun b hb => by
          simp only [decide_eq_true_eq]
          rintro rfl
          exact hxt hb)
      rw [List.filter_cons, if_neg (by simp), hsame]
      simp
    · have hxa : x ≠ a := fun h => hxt (h ▸ hat)
      have := ih hndt hat
      simp only [List.filter_cons, hxa, decide_eq_true_eq, List.length_cons]
      rw [if_pos ?hp]
      case hp => simp [hxa]
      simp only [List.length_cons]
      omega

theorem msExec_fold_spec (P : MSParams) :
    ∀ (ops : List (ℕ × ℕ)) (g : AG),
      g.originSet.Nodup →
      (ops.map Prod.fst).Nodup →
      (∀ op ∈ ops, op.1 ∈ g.originSet) →
      (ops.foldl (msExec P) g).originSet.length + ops.length = g.originSet.length ∧
      (ops.foldl (msExec P) g).originSet.Nodup := by
  intro ops
  induction ops with
  | nil => intro g h _ _; exact ⟨by simp, h⟩
  | cons op t ih =>
    intro g hnd hfst hmem
    have hop : op.1 ∈ g.originSet := hmem op (List.mem_cons_self _ _)
    have hOS := msExec_originSet P g op
    have hnd' : (msExec P g op).originSet.Nodup := by
      rw [hOS]; exact hnd.filter _
    have hmem' : ∀ o ∈ t, o.1 ∈ (msExec P g op).originSet := by
      intro o ho
      rw [hOS, List.mem_filter]
      refine ⟨hmem o (List.mem_cons_of_mem _ ho), ?_⟩
      have hne : o.1 ≠ op.1 := by
        have h1 : op.1 ∉ t.map Prod.fst := (List.nodup_cons.mp hfst).1
        intro he
        exact h1 (he ▸ List.mem_map_of_mem Prod.fst ho)
      simpa using hne
    obtain ⟨hlen, hnd2⟩ := ih (msExec P g op) hnd' (List.nodup_cons.mp hfst).2 hmem'
    refine ⟨?_, hnd2⟩
    rw [List.foldl_cons] at *
    rw [hOS] at hlen
    have hfl := filter_ne_length g.originSet op.1 hnd hop
    simp only [List.length_cons]
    omega

theorem planStep_tail_helper (st : List ℕ × List ℕ × List (ℕ × ℕ)) (s nb : ℕ)
    (pr : List ℕ) (c : Prop) [Decidable c] (hs : s ∉ st.1) :
    (if c then (st.1 ++ [s], pr, st.2.2 ++ [(s, nb)]) else st) = st ∨
    (s ∉ st.1 ∧ ∃ pr2 nb2,
      (if c then (st.1 ++ [s], pr, st.2.2 ++ [(s, nb)]) else st)
        = (st.1 ++ [s], pr2, st.2.2 ++ [(s, nb2)])) := by
  by_cases hc : c
  · rw [if_pos hc]
    exact Or.inr ⟨hs, pr, nb, rfl⟩
  · rw [if_neg hc]
    exact Or.inl rfl

theorem msPlanStep_eq_or (P : MSParams) (g : AG)
    (st : List ℕ × List ℕ × List (ℕ × ℕ)) (s : ℕ) :
    msPlanStep P g st s = st ∨
    (s ∉ st.1 ∧ ∃ pr nb, msPlanStep P g st s = (st.1 ++ [s], pr, st.2.2 ++ [(s, nb)])) := by
  unfold msPlanStep
  by_cases hs : s ∈ st.1
  · left
    rw [if_pos hs]
  · rw [if_neg hs]
    dsimp only
    split
    · exact Or.inl rfl
    · split
      · exact planStep_tail_helper st s _ _ _ hs
      · exact planStep_tail_helper st s _ _ _ hs

theorem msPlan_fold_inv (P : MSParams) (g : AG) :
    ∀ (l : List ℕ) (st : List ℕ × List ℕ × List (ℕ × ℕ)),
      st.1 = st.2.2.map Prod.fst →
      st.1.Nodup →
      (st.2.2 = [] → st.2.1 = []) →
      (l.foldl (msPlanStep P g) st).1 = (l.foldl (msPlanStep P g) st).2.2.map Prod.fst ∧
      (l.foldl (msPlanStep P g) st).1.Nodup ∧
      ((l.foldl (msPlanStep P g) st).2.2 = [] → (l.foldl (msPlanStep P g) st).2.1 = []) ∧
      (∀ v, v ∈ (l.foldl (msPlanStep P g) st).1 → v ∈ st.1 ∨ v ∈ l) := by
  intro l
  induction l with
  | nil =>
    intro st h1 h2 h3
    exact ⟨h1, h2, h3, fun v hv => Or.inl hv⟩
  | cons s t ih =>
    intro st h1 h2 h3
    rcases msPlanStep_eq_or P g st s with heq | ⟨hs, pr, nb, heq⟩
    · rw [List.foldl_cons, heq]
      obtain ⟨a1, a2, a3, a4⟩ := ih st h1 h2 h3
      exact ⟨a1, a2, a3, fun v hv => (a4 v hv).imp id (List.mem_cons_of_mem s)⟩
    · rw [List.foldl_cons, heq]
      have h1' : (st.1 ++ [s], pr, st.2.2 ++ [(s, nb)]).1
          = (st.1 ++ [s], pr, st.2.2 ++ [(s, nb)]).2.2.map Prod.fst := by
        simp [h1]
      have h2' : (st.1 ++ [s]).Nodup := by
        rw [List.nodup_append]
        exact ⟨h2, List.nodup_singleton s,
          fun a ha hb => hs ((List.mem_singleton.mp hb) ▸ ha)⟩
      have h3' : (st.1 ++ [s], pr, st.2.2 ++ [(s, nb)]).2.2 = []
          → (st.1 ++ [s], pr, st.2.2 ++ [(s, nb)]).2.1 = [] := by
        intro hc
        exact absurd hc (by simp)
      obtain ⟨a1, a2, a3, a4⟩ := ih (st.1 ++ [s], pr, st.2.2 ++ [(s, nb)]) h1' h2' h3'
      refine ⟨a1, a2, a3, fun v hv => ?_⟩
      rcases a4 v hv with hv1 | hv2
      · rcases List.mem_append.mp hv1 with hq | hq
        · exact Or.inl hq
        · exact Or.inr ((List.mem_singleton.mp hq) ▸ List.mem_cons_self s t)
      · exact Or.inr (List.mem_cons_of_mem s hv2)

theorem insertByArea_perm (P : MSParams) (g : AG) (v : ℕ) :
    ∀ l : List ℕ, (insertByArea P g v l).Perm (v :: l) := by
  intro l
  induction l with
  | nil => exact List.Perm.refl _
  | cons x xs ih =>
    unfold insertByArea
    split
    · exact List.Perm.refl _
    · exact (ih.cons x).trans (List.Perm.swap v x xs)

theorem sortByArea_perm (P : MSParams) (g : AG) (l : List ℕ) :
    (sortByArea P g l).Perm l := by
  induction l with
  | nil => exact List.Perm.refl _
  | cons x xs ih =>
    show (insertByArea P g x (xs.foldr (insertByArea P g) [])).Perm (x :: xs)
    exact (insertByArea_perm P g x _).trans (ih.cons x)

theorem msPass_exec_spec (P : MSParams) (g : AG) (h : g.originSet.Nodup)
    (smalls : List ℕ) (hsm : ∀ v ∈ smalls, v ∈ g.originSet) :
    ((((sortByArea P g smalls).foldl (msPlanStep P g) ([], [], [])).2.2.foldl
        (msExec P) g).originSet.length
      + (((sortByArea P g smalls).foldl (msPlanStep P g) ([], [], [])).2.2).length
      = g.originSet.length)
    ∧ (((sortByArea P g smalls).foldl (msPlanStep P g) ([], [], [])).2.2.foldl
        (msExec P) g).originSet.Nodup := by
  obtain ⟨a1, a2, a3, a4⟩ := msPlan_fold_inv P g (sortByArea P g smalls) ([], [], [])
    rfl List.nodup_nil (fun _ => rfl)
  have hfst : ((((sortByArea P g smalls).foldl (msPlanStep P g)
      ([], [], [])).2.2).map Prod.fst).Nodup := a1 ▸ a2
  have hmem : ∀ op ∈ (((sortByArea P g smalls).foldl (msPlanStep P g)
      ([], [], [])).2.2), op.1 ∈ g.originSet := by
    intro op hop
    have h1 : op.1 ∈ ((((sortByArea P g smalls).foldl (msPlanStep P g)
        ([], [], [])).2.2).map Prod.fst) := List.mem_map_of_mem Prod.fst hop
    rw [← a1] at h1
    rcases a4 op.1 h1 with hc | hc
    · cases hc
    · exact hsm op.1 ((sortByArea_perm P g smalls).mem_iff.mp hc)
  exact msExec_fold_spec P _ g h hfst hmem

theorem msPass_spec (P : MSParams) (g : AG) (h : g.originSet.Nodup) :
    (msPass P g).1.originSet.length + (msPass P g).2.length = g.originSet.length ∧
    (msPass P g).1.originSet.Nodup := by
  unfold msPass
  dsimp only
  split
  · exact ⟨by simp, h⟩
  · split
    · exact ⟨by simp, h⟩
    · have hsm : ∀ v ∈ g.originSet.filter
          (fun v => calculateRoomArea g v < P.minArea / (P.resolution * P.resolution)),
          v ∈ g.originSet := fun v hv => (List.mem_filter.mp hv).1
      exact msPass_exec_spec P g h _ hsm

theorem filter_not_contains_nil (l : List ℕ) :
    l.filter (fun p => !(([] : List ℕ).contains p)) = l := by
  induction l with
  | nil => rfl
  | cons x t ih =>
    show x :: t.filter _ = x :: t
    rw [ih]

theorem msPass_eq_of_ops_nil (P : MSParams) (g : AG) :
    (msPass P g).2 = [] → (msPass P g).1 = g := by
  unfold msPass
  dsimp only
  split
  · intro _; rfl
  · split
    · intro _; rfl
    · intro hops
      dsimp only at hops
      obtain ⟨-, -, a3, -⟩ := msPlan_fold_inv P g
        (sortByArea P g (g.originSet.filter
          (fun v => calculateRoomArea g v < P.minArea / (P.resolution * P.resolution))))
        ([], [], []) rfl List.nodup_nil (fun _ => rfl)
      have hpr := a3 hops
      dsimp only
      rw [hops, hpr]
      show { g with passageEList := g.passageEList.filter _ } = g
      rw [filter_not_contains_nil]

theorem mergeSmallFuel_congr (P : MSParams) :
    ∀ (n : ℕ) (g : AG) (f1 f2 : ℕ), g.originSet.Nodup →
      g.originSet.length < n → n ≤ f1 → n ≤ f2 →
      mergeSmallFuel P f1 g = mergeSmallFuel P f2 g := by
  intro n
  induction n with
  | zero => intro g f1 f2 _ h; exact absurd h (Nat.not_lt_zero _)
  | succ n ih =>
    intro g f1 f2 hnd hlen hf1 hf2
    obtain ⟨f1', rfl⟩ : ∃ k, f1 = k + 1 := ⟨f1 - 1, by omega⟩
    obtain ⟨f2', rfl⟩ : ∃ k, f2 = k + 1 := ⟨f2 - 1, by omega⟩
    simp only [mergeSmallFuel]
    by_cases hops : (msPass P g).2 = []
    · rw [if_pos hops, if_pos hops]
    · rw [if_neg hops, if_neg hops]
      obtain ⟨hlen', hnd'⟩ := msPass_spec P g hnd
      have hpos : 0 < (msPass P g).2.length := List.length_pos.mpr hops
      exact ih (msPass P g).1 f1' f2' hnd' (by omega) (by omega) (by omega)

theorem mergeSmallFuel_fixed (P : MSParams) :
    ∀ (fuel : ℕ) (g : AG), g.originSet.Nodup → g.originSet.length < fuel →
      (msPass P (mergeSmallFuel P fuel g)).2 = [] := by
  intro fuel
  induction fuel with
  | zero => intro g _ h; exact absurd h (Nat.not_lt_zero _)
  | succ f ih =>
    intro g hnd hlen
    simp only [mergeSmallFuel]
    by_cases hops : (msPass P g).2 = []
    · rw [if_pos hops, msPass_eq_of_ops_nil P g hops]
      exact hops
    · rw [if_neg hops]
      obtain ⟨hlen', hnd'⟩ := msPass_spec P g hnd
      have hpos : 0 < (msPass P g).2.length := List.length_pos.mpr hops
      exact ih (msPass P g).1 hnd' (by omega)

/-- Claim C9 (confirmed, for duplicate-free vertex collections, which the
pointer-set `originSet` of the source always is): the fixed-point recursion
of `mergeSmallAdjacentRooms` (RoomProcessor.cpp:304) terminates - every
executed merge removes exactly one vertex, so `|originSet| + 1` passes
always suffice (any larger fuel gives the same result), and the result is a
genuine fixed point: one more pass performs zero merges and leaves the
graph unchanged. -/
theorem claim9_mergeSmall_terminates (P : MSParams) (g : AG)
    (h : g.originSet.Nodup) :
    (∀ fuel, g.originSet.length + 1 ≤ fuel →
        mergeSmallFuel P fuel g = mergeSmallAdjacentRooms P g) ∧
    msPass P (mergeSmallAdjacentRooms P g) = (mergeSmallAdjacentRooms P g, []) := by
  constructor
  · intro fuel hf
    exact mergeSmallFuel_congr P (g.originSet.length + 1) g fuel
      (g.originSet.length + 1) h (by omega) hf (le_refl _)
  · have hfix : (msPass P (mergeSmallFuel P (g.originSet.length + 1) g)).2 = [] :=
      mergeSmallFuel_fixed P (g.originSet.length + 1) g h (by omega)
    exact Prod.ext_iff.mpr ⟨msPass_eq_of_ops_nil P _ hfix, hfix⟩

/-- Witness for C9 at the one-room graph and the C1 parameter set. -/
theorem claim9_mergeSmall_witness :
    c4Graph.originSet.Nodup ∧
    msPass trivialExportParams.ms (mergeSmallAdjacentRooms trivialExportParams.ms c4Graph)
      = (mergeSmallAdjacentRooms trivialExportParams.ms c4Graph, []) := by
  have hnd : c4Graph.originSet.Nodup := of_decide_eq_true (by with_unfolding_all rfl)
  exact ⟨hnd, (claim9_mergeSmall_terminates trivialExportParams.ms c4Graph hnd).2⟩

/-! ### Claim C8 - idempotence of removeDuplicatePolygons -/

theorem update_shape (vs : ℕ → RVert) (v : ℕ) (r : RVert)
    (hp : r.polygon = (vs v).polygon) (hr : r.roomId = (vs v).roomId) (w : ℕ) :
    (Function.update vs v r w).polygon = (vs w).polygon ∧
    (Function.update vs v r w).roomId = (vs w).roomId := by
  by_cases hw : w = v
  · subst hw
    rw [Function.update_same]
    exact ⟨hp, hr⟩
  · rw [Function.update_noteq hw]
    exact ⟨rfl, rfl⟩

theorem foldl_shape {α : Type} (f : AG → α → AG)
    (hf : ∀ gg a w, ((f gg a).verts w).polygon = (gg.verts w).polygon ∧
        ((f gg a).verts w).roomId = (gg.verts w).roomId) :
    ∀ (l : List α) (gg : AG) (w : ℕ),
      ((l.foldl f gg).verts w).polygon = (gg.verts w).polygon ∧
      ((l.foldl f gg).verts w).roomId = (gg.verts w).roomId := by
  intro l
  induction l with
  | nil => intro gg w; exact ⟨rfl, rfl⟩
  | cons a t ih =>
    intro gg w
    rw [List.foldl_cons]
    obtain ⟨h1, h2⟩ := ih (f gg a) w
    obtain ⟨h3, h4⟩ := hf gg a w
    exact ⟨h1.trans h3, h2.trans h4⟩

def tpStep (s t : ℕ) (gg : AG) (p : ℕ) : AG :=
  let gg1 := if p ∈ (getV gg t).passages then gg
             else modVert gg t (fun r => { r with passages := r.passages ++ [p] })
  setPass gg1 p ⟨transferCasGo s t [] (getP gg1 p).connectedAreas⟩

theorem modVert_shape (g : AG) (v : ℕ) (f : RVert → RVert)
    (hp : (f (getV g v)).polygon = (getV g v).polygon)
    (hr : (f (getV g v)).roomId = (getV g v).roomId) (w : ℕ) :
    ((modVert g v f).verts w).polygon = (g.verts w).polygon ∧
    ((modVert g v f).verts w).roomId = (g.verts w).roomId :=
  update_shape g.verts v (f (getV g v)) hp hr w

theorem tpStep_shape (s t : ℕ) (gg : AG) (p : ℕ) (w : ℕ) :
    ((tpStep s t gg p).verts w).polygon = (gg.verts w).polygon ∧
    ((tpStep s t gg p).verts w).roomId = (gg.verts w).roomId := by
  unfold tpStep
  by_cases hc : p ∈ (getV gg t).passages
  · simp only [if_pos hc]
    exact ⟨rfl, rfl⟩
  · simp only [if_neg hc]
    exact modVert_shape gg t (fun r => { r with passages := r.passages ++ [p] }) rfl rfl w

theorem transferPassages_shape (g : AG) (s t : ℕ) (w : ℕ) :
    ((transferPassages g s t).verts w).polygon = (g.verts w).polygon ∧
    ((transferPassages g s t).verts w).roomId = (g.verts w).roomId := by
  have heq : transferPassages g s t
      = modVert ((getV g s).passages.foldl (tpStep s t) g) s
          (fun r => { r with passages := [] }) := rfl
  rw [heq]
  obtain ⟨h1, h2⟩ := modVert_shape ((getV g s).passages.foldl (tpStep s t) g) s
    (fun r => { r with passages := [] }) rfl rfl w
  obtain ⟨h3, h4⟩ := foldl_shape (tpStep s t) (tpStep_shape s t) (getV g s).passages g w
  exact ⟨h1.trans h3, h2.trans h4⟩

theorem dedupScanJ_no (E : List Pt → List Pt → Bool) (x : ℕ) :
    ∀ (ys : List ℕ) (g : AG) (tr : List ℕ),
      (∀ y ∈ ys, E (getV g x).polygon (getV g y).polygon = false) →
      dedupScanJ E x g tr ys = (g, tr) := by
  intro ys
  induction ys with
  | nil => intro g tr _; rfl
  | cons y ys ih =>
    intro g tr h
    have hy : E (getV g x).polygon (getV g y).polygon = false :=
      h y (List.mem_cons_self _ _)
    show (if E (getV g x).polygon (getV g y).polygon = true then _ else dedupScanJ E x g tr ys) = _
    rw [if_neg (by rw [hy]; exact Bool.false_ne_true)]
    exact ih g tr (fun y' hy' => h y' (List.mem_cons_of_mem _ hy'))

theorem dedupScanI_no (E : List Pt → List Pt → Bool) :
    ∀ (xs : List ℕ) (g : AG) (tr : List ℕ),
      List.Pairwise (fun a b => E (getV g a).polygon (getV g b).polygon = false) xs →
      dedupScanI E g tr xs = (g, tr) := by
  intro xs
  induction xs with
  | nil => intro g tr _; rfl
  | cons x xs ih =>
    intro g tr h
    obtain ⟨hx, hxs⟩ := List.pairwise_cons.mp h
    show dedupScanI E (dedupScanJ E x g tr xs).1 (dedupScanJ E x g tr xs).2 xs = _
    rw [dedupScanJ_no E x xs g tr hx]
    exact ih g tr hxs

theorem dedupScanJ_spec (E : List Pt → List Pt → Bool) (x : ℕ) :
    ∀ (ys : List ℕ) (g : AG) (tr : List ℕ),
      (∀ w, ((dedupScanJ E x g tr ys).1.verts w).polygon = (g.verts w).polygon ∧
            ((dedupScanJ E x g tr ys).1.verts w).roomId = (g.verts w).roomId) ∧
      (dedupScanJ E x g tr ys).1.originSet = g.originSet ∧
      (∃ d, (dedupScanJ E x g tr ys).2 = tr ++ d) ∧
      (∀ y ∈ ys, E (g.verts x).polygon (g.verts y).polygon = true →
          x ∈ (dedupScanJ E x g tr ys).2 ∨ y ∈ (dedupScanJ E x g tr ys).2) := by
  intro ys
  induction ys with
  | nil =>
    intro g tr
    exact ⟨fun w => ⟨rfl, rfl⟩, rfl, ⟨[], by rw [List.append_nil]; rfl⟩, by simp⟩
  | cons y ys ih =>
    intro g tr
    have hunf : dedupScanJ E x g tr (y :: ys)
        = if E (getV g x).polygon (getV g y).polygon = true then
            (if (getV g y).roomId < (getV g x).roomId then
              (transferPassages g x y, tr ++ [x])
            else dedupScanJ E x (transferPassages g y x) (tr ++ [y]) ys)
          else dedupScanJ E x g tr ys := rfl
    rw [hunf]
    by_cases hE : E (getV g x).polygon (getV g y).polygon = true
    · rw [if_pos hE]
      by_cases hR : (getV g y).roomId < (getV g x).roomId
      · rw [if_pos hR]
        refine ⟨fun w => transferPassages_shape g x y w, transferPassages_originSet g x y,
          ⟨[x], rfl⟩, fun y' _ _ => Or.inl (by simp)⟩
      · rw [if_neg hR]
        obtain ⟨s1, s2, ⟨d, hd⟩, s4⟩ := ih (transferPassages g y x) (tr ++ [y])
        have hsh : ∀ w,
            ((dedupScanJ E x (transferPassages g y x) (tr ++ [y]) ys).1.verts w).polygon
              = (g.verts w).polygon ∧
            ((dedupScanJ E x (transferPassages g y x) (tr ++ [y]) ys).1.verts w).roomId
              = (g.verts w).roomId := by
          intro w
          obtain ⟨a1, a2⟩ := s1 w
          obtain ⟨b1, b2⟩ := transferPassages_shape g y x w
          exact ⟨a1.trans b1, a2.trans b2⟩
        refine ⟨hsh, s2.trans (transferPassages_originSet g y x), ⟨[y] ++ d, by
          rw [hd, List.append_assoc]⟩, ?_⟩
        intro y' hy' hEy
        rcases List.mem_cons.mp hy' with rfl | hy2
        · right
          rw [hd]
          exact List.mem_append_left _ (List.mem_append_right _ (by simp))
        · refine s4 y' hy2 ?_
          obtain ⟨px, -⟩ := transferPassages_shape g y x x
          obtain ⟨py, -⟩ := transferPassages_shape g y x y'
          rw [px, py]
          exact hEy
    · rw [if_neg hE]
      obtain ⟨s1, s2, s3, s4⟩ := ih g tr
      refine ⟨s1, s2, s3, ?_⟩
      intro y' hy' hEy
      rcases List.mem_cons.mp hy' with rfl | hy2
      · exact absurd hEy hE
      · exact s4 y' hy2 hEy

theorem dedupScanI_spec (E : List Pt → List Pt → Bool) :
    ∀ (xs : List ℕ) (g : AG) (tr : List ℕ),
      (∀ w, ((dedupScanI E g tr xs).1.verts w).polygon = (g.verts w).polygon ∧
            ((dedupScanI E g tr xs).1.verts w).roomId = (g.verts w).roomId) ∧
      (dedupScanI E g tr xs).1.originSet = g.originSet ∧
      (∃ d, (dedupScanI E g tr xs).2 = tr ++ d) ∧
      List.Pairwise (fun a b => E (g.verts a).polygon (g.verts b).polygon = true →
          a ∈ (dedupScanI E g tr xs).2 ∨ b ∈ (dedupScanI E g tr xs).2) xs := by
  intro xs
  induction xs with
  | nil =>
    intro g tr
    exact ⟨fun w => ⟨rfl, rfl⟩, rfl, ⟨[], by rw [List.append_nil]; rfl⟩, List.Pairwise.nil⟩
  | cons x xs ih =>
    intro g tr
    have hunf : dedupScanI E g tr (x :: xs)
        = dedupScanI E (dedupScanJ E x g tr xs).1 (dedupScanJ E x g tr xs).2 xs := rfl
    rw [hunf]
    obtain ⟨j1, j2, ⟨dj, hdj⟩, j4⟩ := dedupScanJ_spec E x xs g tr
    obtain ⟨i1, i2, ⟨di, hdi⟩, i4⟩ := ih (dedupScanJ E x g tr xs).1 (dedupScanJ E x g tr xs).2
    have hsh : ∀ w,
        ((dedupScanI E (dedupScanJ E x g tr xs).1 (dedupScanJ E x g tr xs).2 xs).1.verts w).polygon
          = (g.verts w).polygon ∧
        ((dedupScanI E (dedupScanJ E x g tr xs).1 (dedupScanJ E x g tr xs).2 xs).1.verts w).roomId
          = (g.verts w).roomId := by
      intro w
      obtain ⟨a1, a2⟩ := i1 w
      obtain ⟨b1, b2⟩ := j1 w
      exact ⟨a1.trans b1, a2.trans b2⟩
    have hmono : ∀ v, v ∈ (dedupScanJ E x g tr xs).2 →
        v ∈ (dedupScanI E (dedupScanJ E x g tr xs).1 (dedupScanJ E x g tr xs).2 xs).2 := by
      intro v hv
      rw [hdi]
      exact List.mem_append_left _ hv
    refine ⟨hsh, i2.trans j2, ⟨dj ++ di, by rw [hdi, hdj, List.append_assoc]⟩, ?_⟩
    rw [List.pairwise_cons]
    constructor
    · intro y hy hEy
      rcases j4 y hy hEy with h | h
      · exact Or.inl (hmono x h)
      · exact Or.inr (hmono y h)
    · refine List.Pairwise.imp_of_mem ?_ i4
      intro a b _ _ himp hEab
      refine himp ?_
      obtain ⟨pa, -⟩ := j1 a
      obtain ⟨pb, -⟩ := j1 b
      rw [pa, pb]
      exact hEab

/-- First-entry lookup in the bucket map, defaulting to the empty bucket. -/
def bGet (m : List (ℕ × List ℕ)) (k : ℕ) : List ℕ :=
  match m.find? (fun kv => kv.1 = k) with
  | some kv => kv.2
  | none => []

theorem bGet_cons (kv : ℕ × List ℕ) (m : List (ℕ × List ℕ)) (k : ℕ) :
    bGet (kv :: m) k = if kv.1 = k then kv.2 else bGet m k := by
  simp only [bGet, List.find?_cons]
  by_cases h : kv.1 = k
  · simp [h]
  · simp [h]

theorem bGet_bucketsInsert (m : List (ℕ × List ℕ)) (k v k' : ℕ) :
    bGet (bucketsInsert m k v) k'
      = if k' = k then bGet m k ++ [v] else bGet m k' := by
  induction m with
  | nil =>
    by_cases h : k' = k
    · rw [if_pos h]
      subst h
      simp [bucketsInsert, bGet_cons, bGet]
    · rw [if_neg h]
      have h2 : ¬(k = k') := fun hc => h hc.symm
      simp [bucketsInsert, bGet_cons, h2, bGet]
  | cons kv m ih =>
    show bGet (if kv.1 = k then (kv.1, kv.2 ++ [v]) :: m else kv :: bucketsInsert m k v) k' = _
    by_cases hk : kv.1 = k
    · rw [if_pos hk, bGet_cons]
      by_cases h' : k' = k
      · rw [if_pos h', bGet_cons]
        subst h'
        rw [if_pos hk, if_pos hk]
      · rw [if_neg h', bGet_cons]
        have : ¬(kv.1 = k') := fun hc => h' (hc.symm.trans hk)
        rw [if_neg this, if_neg this]
    · rw [if_neg hk, bGet_cons]
      by_cases h' : k' = k
      · rw [if_pos h']
        have hne : ¬(kv.1 = k') := fun hc => hk (hc.trans h')
        rw [if_neg hne, ih, if_pos h', bGet_cons, if_neg (h' ▸ hne)]
      · rw [if_neg h']
        by_cases hc : kv.1 = k'
        · rw [if_pos hc, bGet_cons, if_pos hc]
        · rw [if_neg hc, ih, if_neg h', bGet_cons, if_neg hc]

theorem polygonBucketsFold_bGet (H : List Pt → ℕ) (g : AG) :
    ∀ (l : List ℕ) (m : List (ℕ × List ℕ)) (k : ℕ),
      bGet (l.foldl (fun acc v => bucketsInsert acc (H (getV g v).polygon) v) m) k
        = bGet m k ++ l.filter (fun v => H (getV g v).polygon = k) := by
  intro l
  induction l with
  | nil => intro m k; simp
  | cons v t ih =>
    intro m k
    rw [List.foldl_cons, ih, bGet_bucketsInsert, List.filter_cons]
    by_cases h : H (getV g v).polygon = k
    · rw [if_pos h.symm, if_pos (by simp [h]), h, List.append_assoc]
      rfl
    · rw [if_neg (fun hc => h hc.symm), if_neg (by simp [h])]

theorem mem_keys_bucketsInsert (m : List (ℕ × List ℕ)) (k v x : ℕ) :
    x ∈ (bucketsInsert m k v).map Prod.fst ↔ x ∈ m.map Prod.fst ∨ x = k := by
  induction m with
  | nil => simp [bucketsInsert]
  | cons kv m ih =>
    show x ∈ (if kv.1 = k then (kv.1, kv.2 ++ [v]) :: m
        else kv :: bucketsInsert m k v).map Prod.fst ↔ _
    by_cases hk : kv.1 = k
    · rw [if_pos hk]
      simp only [List.map_cons, List.mem_cons]
      constructor
      · exact fun h => Or.inl h
      · rintro ((h | h) | rfl)
        · exact Or.inl h
        · exact Or.inr h
        · exact Or.inl hk.symm
    · rw [if_neg hk]
      simp only [List.map_cons, List.mem_cons, ih]
      tauto

theorem keys_nodup_bucketsInsert (m : List (ℕ × List ℕ)) (k v : ℕ)
    (h : (m.map Prod.fst).Nodup) : ((bucketsInsert m k v).map Prod.fst).Nodup := by
  induction m with
  | nil => simp [bucketsInsert]
  | cons kv m ih =>
    rw [List.map_cons, List.nodup_cons] at h
    show ((if kv.1 = k then (kv.1, kv.2 ++ [v]) :: m
        else kv :: bucketsInsert m k v).map Prod.fst).Nodup
    by_cases hk : kv.1 = k
    · rw [if_pos hk]
      rw [List.map_cons, List.nodup_cons]
      exact h
    · rw [if_neg hk]
      rw [List.map_cons, List.nodup_cons]
      refine ⟨?_, ih h.2⟩
      rw [mem_keys_bucketsInsert]
      rintro (hc | hc)
      · exact h.1 hc
      · exact hk hc

theorem keys_nodup_fold (H : List Pt → ℕ) (g : AG) :
    ∀ (l : List ℕ) (m : List (ℕ × List ℕ)), (m.map Prod.fst).Nodup →
      ((l.foldl (fun acc v => bucketsInsert acc (H (getV g v).polygon) v) m).map
        Prod.fst).Nodup := by
  intro l
  induction l with
  | nil => intro m h; exact h
  | cons v t ih =>
    intro m h
    rw [List.foldl_cons]
    exact ih _ (keys_nodup_bucketsInsert m _ v h)

theorem bGet_entry : ∀ (m : List (ℕ × List ℕ)), (m.map Prod.fst).Nodup →
    ∀ (k : ℕ) (B : List ℕ), (k, B) ∈ m → bGet m k = B := by
  intro m
  induction m with
  | nil => intro _ k B h; cases h
  | cons kv m ih =>
    intro hnd k B hmem
    rw [List.map_cons, List.nodup_cons] at hnd
    rcases List.mem_cons.mp hmem with rfl | hm
    · rw [bGet_cons, if_pos rfl]
    · have hk : kv.1 ≠ k := by
        rintro rfl
        exact hnd.1 (List.mem_map.mpr ⟨(kv.1, B), hm, rfl⟩)
      rw [bGet_cons, if_neg hk]
      exact ih hnd.2 k B hm

theorem entry_of_bGet (m : List (ℕ × List ℕ)) (k : ℕ) (h : bGet m k ≠ []) :
    (k, bGet m k) ∈ m := by
  cases hf : m.find? (fun kv => kv.1 = k) with
  | none =>
    exfalso
    apply h
    unfold bGet
    rw [hf]
  | some kv =>
    have h1 := List.mem_of_find?_eq_some hf
    have h2 := List.find?_some hf
    simp only [decide_eq_true_eq] at h2
    have hb : bGet m k = kv.2 := by unfold bGet; rw [hf]
    rw [hb, ← h2, Prod.mk.eta]
    exact h1

theorem insertByKey_perm (kv : ℕ × List ℕ) :
    ∀ m : List (ℕ × List ℕ), (insertByKey kv m).Perm (kv :: m) := by
  intro m
  induction m with
  | nil => exact List.Perm.refl _
  | cons x xs ih =>
    unfold insertByKey
    split
    · exact List.Perm.refl _
    · exact (ih.cons x).trans (List.Perm.swap kv x xs)

theorem sortByKey_perm (m : List (ℕ × List ℕ)) : (sortByKey m).Perm m := by
  induction m with
  | nil => exact List.Perm.refl _
  | cons kv m ih =>
    show (insertByKey kv (m.foldr insertByKey [])).Perm (kv :: m)
    exact (insertByKey_perm kv _).trans (ih.cons kv)

theorem bGet_perm (m m' : List (ℕ × List ℕ)) (hp : m.Perm m')
    (hnd : (m.map Prod.fst).Nodup) (k : ℕ) : bGet m k = bGet m' k := by
  by_cases h : bGet m k = []
  · by_cases h' : bGet m' k = []
    · rw [h, h']
    · have hB := entry_of_bGet m' k h'
      have h2 : (k, bGet m' k) ∈ m := hp.symm.subset hB
      have h3 := bGet_entry m hnd k _ h2
      exact absurd (h ▸ h3).symm h'
  · have hB := entry_of_bGet m k h
    have h2 : (k, bGet m k) ∈ m' := hp.subset hB
    have hnd' : (m'.map Prod.fst).Nodup := ((hp.map Prod.fst).nodup_iff).mp hnd
    exact (bGet_entry m' hnd' k _ h2).symm

theorem polygonBuckets_keys_nodup (H : List Pt → ℕ) (g : AG) :
    ((polygonBuckets H g).map Prod.fst).Nodup := by
  unfold polygonBuckets
  have h1 := keys_nodup_fold H g (g.originSet.filter (fun v => !(getV g v).polygon.isEmpty))
    [] List.nodup_nil
  exact ((sortByKey_perm _).map Prod.fst).nodup_iff.mpr h1

theorem polygonBuckets_bGet (H : List Pt → ℕ) (g : AG) (k : ℕ) :
    bGet (polygonBuckets H g) k
      = (g.originSet.filter (fun v => !(getV g v).polygon.isEmpty)).filter
          (fun v => H (getV g v).polygon = k) := by
  unfold polygonBuckets
  rw [bGet_perm _ _ (sortByKey_perm _)
    (((sortByKey_perm _).map Prod.fst).nodup_iff.mpr
      (keys_nodup_fold H g _ [] List.nodup_nil))]
  rw [polygonBucketsFold_bGet H g]
  rfl

/-- The bucket loop of RoomProcessor.cpp:48-78 as a named fold. -/
def dedupFold (E : List Pt → List Pt → Bool) (bl : List (ℕ × List ℕ)) (g : AG)
    (tr : List ℕ) : AG × List ℕ :=
  bl.foldl (fun acc kb => if kb.2.length ≤ 1 then acc else dedupScanI E acc.1 acc.2 kb.2)
    (g, tr)

theorem removeDuplicatePolygons_eq (H : List Pt → ℕ) (E : List Pt → List Pt → Bool)
    (g : AG) :
    removeDuplicatePolygons H E g
      = if g.originSet = [] then g
        else { (dedupFold E (polygonBuckets H g) g []).1 with
            originSet := (dedupFold E (polygonBuckets H g) g []).1.originSet.filter
              (fun v => !((dedupFold E (polygonBuckets H g) g []).2.contains v)) } := rfl

theorem dedupFold_cons (E : List Pt → List Pt → Bool) (kb : ℕ × List ℕ)
    (bl : List (ℕ × List ℕ)) (g : AG) (tr : List ℕ) :
    dedupFold E (kb :: bl) g tr
      = if kb.2.length ≤ 1 then dedupFold E bl g tr
        else dedupFold E bl (dedupScanI E g tr kb.2).1 (dedupScanI E g tr kb.2).2 := by
  unfold dedupFold
  rw [List.foldl_cons]
  dsimp only
  by_cases hc : kb.2.length ≤ 1
  · rw [if_pos hc, if_pos hc]
  · rw [if_neg hc, if_neg hc]

theorem pairwise_of_short {R : ℕ → ℕ → Prop} (l : List ℕ) (h : l.length ≤ 1) :
    List.Pairwise R l := by
  match l, h with
  | [], _ => exact List.Pairwise.nil
  | [a], _ => exact List.pairwise_cons.mpr ⟨by simp, List.Pairwise.nil⟩
  | a :: b :: t, h =>
    simp only [List.length_cons] at h
    omega

theorem dedupFold_spec (E : List Pt → List Pt → Bool) :
    ∀ (bl : List (ℕ × List ℕ)) (g : AG) (tr : List ℕ),
      (∀ w, ((dedupFold E bl g tr).1.verts w).polygon = (g.verts w).polygon ∧
            ((dedupFold E bl g tr).1.verts w).roomId = (g.verts w).roomId) ∧
      (dedupFold E bl g tr).1.originSet = g.originSet ∧
      (∃ d, (dedupFold E bl g tr).2 = tr ++ d) ∧
      (∀ kb ∈ bl, List.Pairwise (fun a b =>
          E (g.verts a).polygon (g.verts b).polygon = true →
            a ∈ (dedupFold E bl g tr).2 ∨ b ∈ (dedupFold E bl g tr).2) kb.2) := by
  intro bl
  induction bl with
  | nil =>
    intro g tr
    exact ⟨fun w => ⟨rfl, rfl⟩, rfl, ⟨[], (List.append_nil tr).symm⟩, by simp⟩
  | cons kb bl ih =>
    intro g tr
    rw [dedupFold_cons]
    by_cases hc : kb.2.length ≤ 1
    · rw [if_pos hc]
      obtain ⟨a1, a2, a3, a4⟩ := ih g tr
      refine ⟨a1, a2, a3, ?_⟩
      intro kb' hkb'
      rcases List.mem_cons.mp hkb' with rfl | h2
      · exact pairwise_of_short _ hc
      · exact a4 kb' h2
    · rw [if_neg hc]
      obtain ⟨s1, s2, ⟨d1, hd1⟩, s4⟩ := dedupScanI_spec E kb.2 g tr
      obtain ⟨a1, a2, a3, a4⟩ :=
        ih (dedupScanI E g tr kb.2).1 (dedupScanI E g tr kb.2).2
      have hsh : ∀ w,
          ((dedupFold E bl (dedupScanI E g tr kb.2).1
              (dedupScanI E g tr kb.2).2).1.verts w).polygon = (g.verts w).polygon ∧
          ((dedupFold E bl (dedupScanI E g tr kb.2).1
              (dedupScanI E g tr kb.2).2).1.verts w).roomId = (g.verts w).roomId := by
        intro w
        obtain ⟨x1, x2⟩ := a1 w
        obtain ⟨y1, y2⟩ := s1 w
        exact ⟨x1.trans y1, x2.trans y2⟩
      obtain ⟨d2, hd2⟩ := a3
      have hmono : ∀ v, v ∈ (dedupScanI E g tr kb.2).2 →
          v ∈ (dedupFold E bl (dedupScanI E g tr kb.2).1 (dedupScanI E g tr kb.2).2).2 := by
        intro v hv
        rw [hd2]
        exact List.mem_append_left _ hv
      refine ⟨hsh, a2.trans s2, ⟨d1 ++ d2, by rw [hd2, hd1, List.append_assoc]⟩, ?_⟩
      intro kb' hkb'
      rcases List.mem_cons.mp hkb' with rfl | h2
      · refine List.Pairwise.imp_of_mem ?_ s4
        intro a b _ _ himp hE
        rcases himp hE with h | h
        · exact Or.inl (hmono a h)
        · exact Or.inr (hmono b h)
      · refine List.Pairwise.imp_of_mem ?_ (a4 kb' h2)
        intro a b _ _ himp hE
        refine himp ?_
        obtain ⟨pa, -⟩ := s1 a
        obtain ⟨pb, -⟩ := s1 b
        rw [pa, pb]
        exact hE

theorem dedupFold_no (E : List Pt → List Pt → Bool) :
    ∀ (bl : List (ℕ × List ℕ)) (g : AG) (tr : List ℕ),
      (∀ kb ∈ bl, List.Pairwise (fun a b =>
          E (getV g a).polygon (getV g b).polygon = false) kb.2) →
      dedupFold E bl g tr = (g, tr) := by
  intro bl
  induction bl with
  | nil => intro g tr _; rfl
  | cons kb bl ih =>
    intro g tr h
    rw [dedupFold_cons]
    by_cases hc : kb.2.length ≤ 1
    · rw [if_pos hc]
      exact ih g tr (fun kb' h' => h kb' (List.mem_cons_of_mem _ h'))
    · rw [if_neg hc, dedupScanI_no E kb.2 g tr (h kb (List.mem_cons_self _ _))]
      exact ih g tr (fun kb' h' => h kb' (List.mem_cons_of_mem _ h'))

theorem removeDuplicatePolygons_spec (H : List Pt → ℕ) (E : List Pt → List Pt → Bool)
    (g : AG) :
    ∃ tr : List ℕ,
      (removeDuplicatePolygons H E g).originSet
          = g.originSet.filter (fun v => !(tr.contains v)) ∧
      (∀ w, ((removeDuplicatePolygons H E g).verts w).polygon = (g.verts w).polygon ∧
            ((removeDuplicatePolygons H E g).verts w).roomId = (g.verts w).roomId) ∧
      (∀ k, List.Pairwise (fun a b =>
          E (g.verts a).polygon (g.verts b).polygon = true → a ∈ tr ∨ b ∈ tr)
        (bGet (polygonBuckets H g) k)) := by
  rw [removeDuplicatePolygons_eq]
  by_cases hempty : g.originSet = []
  · rw [if_pos hempty]
    refine ⟨[], ?_, fun w => ⟨rfl, rfl⟩, ?_⟩
    · rw [hempty]
      rfl
    · intro k
      rw [polygonBuckets_bGet, hempty]
      exact List.Pairwise.nil
  · rw [if_neg hempty]
    obtain ⟨a1, a2, a3, a4⟩ := dedupFold_spec E (polygonBuckets H g) g []
    refine ⟨(dedupFold E (polygonBuckets H g) g []).2, ?_, a1, ?_⟩
    · show (dedupFold E (polygonBuckets H g) g []).1.originSet.filter _ = _
      rw [a2]
    · intro k
      by_cases hlen : (bGet (polygonBuckets H g) k).length ≤ 1
      · exact pairwise_of_short _ hlen
      · have hne : bGet (polygonBuckets H g) k ≠ [] := by
          intro hcon
          rw [hcon] at hlen
          exact hlen (by simp)
        exact a4 (k, bGet (polygonBuckets H g) k) (entry_of_bGet _ k hne)

theorem filter_three_swap (l : List ℕ) (s p q : ℕ → Bool) :
    ((l.filter s).filter p).filter q = (((l.filter p).filter q).filter s) := by
  rw [List.filter_filter, List.filter_filter, List.filter_filter, List.filter_filter]
  exact List.filter_congr (fun a _ => by cases s a <;> cases p a <;> cases q a <;> rfl)

/-- Claim C8 (confirmed, strengthened): `removeDuplicatePolygons` is fully
idempotent - a second run returns its input graph unchanged, so in
particular it removes zero vertices and the vertex count is unchanged.
After a first run, any two surviving vertices that still share a hash
bucket were compared (in this order) by the first run's pair scan without
either being marked, which forces `arePolygonsEqual` to have answered
false; polygons are never modified by the dedup, so the second run's scans
find no equal pair, mark nothing, and transfer nothing. -/
theorem claim8_dedup_idempotent (H : List Pt → ℕ) (E : List Pt → List Pt → Bool)
    (g : AG) :
    removeDuplicatePolygons H E (removeDuplicatePolygons H E g)
      = removeDuplicatePolygons H E g := by
  obtain ⟨tr, hOS, hshape, hpair⟩ := removeDuplicatePolygons_spec H E g
  by_cases hempty : (removeDuplicatePolygons H E g).originSet = []
  · rw [removeDuplicatePolygons_eq H E (removeDuplicatePolygons H E g), if_pos hempty]
  · have hkey : ∀ kb ∈ polygonBuckets H (removeDuplicatePolygons H E g),
        List.Pairwise (fun a b =>
          E (getV (removeDuplicatePolygons H E g) a).polygon
            (getV (removeDuplicatePolygons H E g) b).polygon = false) kb.2 := by
      intro kb hkb
      have hkk : bGet (polygonBuckets H (removeDuplicatePolygons H E g)) kb.1 = kb.2 :=
        bGet_entry _ (polygonBuckets_keys_nodup H _) kb.1 kb.2
          (by rw [Prod.mk.eta]; exact hkb)
      rw [polygonBuckets_bGet] at hkk
      simp only [getV] at hkk
      have hpe : (removeDuplicatePolygons H E g).originSet.filter
            (fun v => !((removeDuplicatePolygons H E g).verts v).polygon.isEmpty)
          = (removeDuplicatePolygons H E g).originSet.filter
            (fun v => !(g.verts v).polygon.isEmpty) :=
        List.filter_congr (fun v _ => by rw [(hshape v).1])
      rw [hpe] at hkk
      have hke : ((removeDuplicatePolygons H E g).originSet.filter
              (fun v => !(g.verts v).polygon.isEmpty)).filter
            (fun v => H ((removeDuplicatePolygons H E g).verts v).polygon = kb.1)
          = ((removeDuplicatePolygons H E g).originSet.filter
              (fun v => !(g.verts v).polygon.isEmpty)).filter
            (fun v => H (g.verts v).polygon = kb.1) :=
        List.filter_congr (fun v _ => by rw [(hshape v).1])
      rw [hke, hOS, filter_three_swap] at hkk
      have hB1 : bGet (polygonBuckets H g) kb.1
          = (g.originSet.filter (fun v => !(g.verts v).polygon.isEmpty)).filter
              (fun v => H (g.verts v).polygon = kb.1) := by
        rw [polygonBuckets_bGet]
        simp only [getV]
      have hsub : List.Sublist kb.2 (bGet (polygonBuckets H g) kb.1) := by
        rw [hB1, ← hkk]
        exact List.filter_sublist _
      have hsurv : ∀ v ∈ kb.2, v ∉ tr := by
        intro v hv
        rw [← hkk] at hv
        have h2 := (List.mem_filter.mp hv).2
        rw [Bool.not_eq_true', containsIffMem'] at h2
        exact h2
      have hp1 := (hpair kb.1).sublist hsub
      refine List.Pairwise.imp_of_mem ?_ hp1
      intro a b ha hb himp
      simp only [getV]
      rw [(hshape a).1, (hshape b).1]
      cases hEab : E (g.verts a).polygon (g.verts b).polygon with
      | false => rfl
      | true =>
        rcases himp hEab with h | h
        · exact absurd h (hsurv a ha)
        · exact absurd h (hsurv b hb)
    have hfold := dedupFold_no E (polygonBuckets H (removeDuplicatePolygons H E g))
      (removeDuplicatePolygons H E g) [] hkey
    rw [removeDuplicatePolygons_eq H E (removeDuplicatePolygons H E g), if_neg hempty,
      hfold]
    dsimp only
    rw [filter_not_contains_nil]

/-! ### Claim C2 - the passage conservation law of the merge phases -/

theorem getP_setPass (g : AG) (p : ℕ) (e : PEdge) (q : ℕ) :
    getP (setPass g p e) q = if q = p then e else getP g q := by
  unfold getP setPass
  by_cases h : q = p
  · subst h
    rw [if_pos rfl]
    exact Function.update_same _ _ _
  · rw [if_neg h]
    exact Function.update_noteq h _ _

theorem rewriteCas_count_b (g : AG) (rid : ℤ) (b : ℕ) (hb : (getV g b).roomId = rid) :
    ∀ (cas : List ℕ),
      ((rewriteCas g rid b cas true).count b
        = if ∃ w ∈ cas, (getV g w).roomId = rid then 1 else 0) ∧
      ((rewriteCas g rid b cas false).count b = 0) := by
  intro cas
  induction cas with
  | nil => simp [rewriteCas]
  | cons w ws ih =>
    have hunfT : rewriteCas g rid b (w :: ws) true
        = if (getV g w).roomId = rid then b :: rewriteCas g rid b ws false
          else w :: rewriteCas g rid b ws true := by
      show (if (getV g w).roomId = rid then
          (if true = true then b :: rewriteCas g rid b ws false else rewriteCas g rid b ws false)
        else w :: rewriteCas g rid b ws true) = _
      rw [if_pos (Eq.refl true)]
    have hunfF : rewriteCas g rid b (w :: ws) false
        = if (getV g w).roomId = rid then rewriteCas g rid b ws false
          else w :: rewriteCas g rid b ws false := by
      show (if (getV g w).roomId = rid then
          (if false = true then b :: rewriteCas g rid b ws false else rewriteCas g rid b ws false)
        else w :: rewriteCas g rid b ws false) = _
      rw [if_neg Bool.false_ne_true]
    by_cases hw : (getV g w).roomId = rid
    · rw [hunfT, hunfF, if_pos hw, if_pos hw]
      constructor
      · rw [List.count_cons_self, ih.2, if_pos ⟨w, List.mem_cons_self _ _, hw⟩]
      · exact ih.2
    · have hwb : w ≠ b := fun hc => hw (hc ▸ hb)
      rw [hunfT, hunfF, if_neg hw, if_neg hw]
      constructor
      · rw [List.count_cons_of_ne (Ne.symm hwb), ih.1]
        have hiff : (∃ x ∈ w :: ws, (getV g x).roomId = rid)
            ↔ (∃ x ∈ ws, (getV g x).roomId = rid) := by
          constructor
          · rintro ⟨x, hx, hxr⟩
            rcases List.mem_cons.mp hx with rfl | hx2
            · exact absurd hxr hw
            · exact ⟨x, hx2, hxr⟩
          · rintro ⟨x, hx, hxr⟩
            exact ⟨x, List.mem_cons_of_mem _ hx, hxr⟩
        by_cases hex : ∃ x ∈ ws, (getV g x).roomId = rid
        · rw [if_pos hex, if_pos (hiff.mpr hex)]
        · rw [if_neg hex, if_neg (fun hc => hex (hiff.mp hc))]
      · rw [List.count_cons_of_ne (Ne.symm hwb), ih.2]

theorem rewriteCas_keeps_nonrid (g : AG) (rid : ℤ) (b : ℕ) :
    ∀ (cas : List ℕ) (fl : Bool) (w : ℕ), w ∈ cas → (getV g w).roomId ≠ rid →
      w ∈ rewriteCas g rid b cas fl := by
  intro cas
  induction cas with
  | nil => intro fl w hw; cases hw
  | cons x xs ih =>
    intro fl w hw hwr
    show w ∈ (if (getV g x).roomId = rid then
        (if fl = true then b :: rewriteCas g rid b xs false else rewriteCas g rid b xs false)
      else x :: rewriteCas g rid b xs fl)
    rcases List.mem_cons.mp hw with rfl | hw2
    · rw [if_neg hwr]
      exact List.mem_cons_self _ _
    · by_cases hx : (getV g x).roomId = rid
      · rw [if_pos hx]
        by_cases hfl : fl = true
        · rw [if_pos hfl]
          exact List.mem_cons_of_mem _ (ih false w hw2 hwr)
        · rw [if_neg hfl]
          exact ih false w hw2 hwr
      · rw [if_neg hx]
        exact List.mem_cons_of_mem _ (ih fl w hw2 hwr)

theorem getV_modVert_self (g : AG) (v : ℕ) (f : RVert → RVert) :
    getV (modVert g v f) v = f (getV g v) := by
  unfold modVert setVert getV
  exact Function.update_same _ _ _

theorem getV_modVert_ne (g : AG) (v : ℕ) (f : RVert → RVert) (w : ℕ) (h : w ≠ v) :
    getV (modVert g v f) w = getV g w := by
  unfold modVert setVert getV
  exact Function.update_noteq h _ _

theorem mem_eq_of_length_le_one (l : List ℕ) (hl : l.length ≤ 1) :
    ∀ x ∈ l, ∀ y ∈ l, x = y := by
  match l, hl with
  | [], _ => intro x hx; cases hx
  | [a], _ =>
    intro x hx y hy
    rw [List.mem_singleton.mp hx, List.mem_singleton.mp hy]
  | a :: c :: t, hl =>
    simp only [List.length_cons] at hl
    omega

theorem all_rid_congr (gA gB : AG)
    (hr : ∀ w, (getV gA w).roomId = (getV gB w).roomId) (l : List ℕ) (rid : ℤ) :
    (l.all (fun w => decide ((getV gA w).roomId = rid)))
      = (l.all (fun w => decide ((getV gB w).roomId = rid))) := by
  induction l with
  | nil => rfl
  | cons x t ih => simp [List.all_cons, hr x, ih]

theorem exists_rid_transport (gA gB : AG)
    (hr : ∀ w, (getV gA w).roomId = (getV gB w).roomId) (l : List ℕ) (rid : ℤ) :
    (∃ w ∈ l, (getV gB w).roomId = rid) → (∃ w ∈ l, (getV gA w).roomId = rid) :=
  fun ⟨w, hw, h⟩ => ⟨w, hw, (hr w).trans h⟩

theorem exists_nrid_transport (gA gB : AG)
    (hr : ∀ w, (getV gA w).roomId = (getV gB w).roomId) (l : List ℕ) (rid : ℤ) :
    (∃ w ∈ l, (getV gB w).roomId ≠ rid) → (∃ w ∈ l, (getV gA w).roomId ≠ rid) :=
  fun ⟨w, hw, h⟩ => ⟨w, hw, fun hc => h ((hr w).symm.trans hc)⟩

theorem mergeAreasPassage_interior (rid : ℤ) (b : ℕ) (g : AG) (p : ℕ)
    (h : ((getP g p).connectedAreas.all
      (fun w => decide ((getV g w).roomId = rid))) = true) :
    mergeAreasPassage rid b g p
      = { g with passageEList := g.passageEList.filter (fun q => q ≠ p) } := by
  unfold mergeAreasPassage
  dsimp only
  rw [if_pos h]

theorem mergeAreasPassage_active (rid : ℤ) (b : ℕ) (g : AG) (p : ℕ)
    (h : ¬(((getP g p).connectedAreas.all
      (fun w => decide ((getV g w).roomId = rid))) = true))
    (hlen : 1 < (getP g p).connectedAreas.length) :
    mergeAreasPassage rid b g p
      = modVert (setPass g p ⟨rewriteCas g rid b (getP g p).connectedAreas true⟩) b
          (fun r => { r with passages := r.passages ++ [p] }) := by
  unfold mergeAreasPassage
  dsimp only
  rw [if_neg h, if_pos hlen]

/-- The invariant carried through the passage loop of one `mergeAreas`
group: `g` is the state at group start, `g'` the current state, `b` the
fresh aggregate, `reml` the interior passages removed so far. -/
structure MAInv (g g' : AG) (rid : ℤ) (b : ℕ) (reml : List ℕ) : Prop where
  rooms : ∀ w, (getV g' w).roomId = (getV g w).roomId
  elist : g'.passageEList = g.passageEList.filter (fun q => !(reml.contains q))
  removed : ∀ q ∈ reml, (getP g' q).connectedAreas.count b = 0 ∧
    q ∉ (getV g' b).passages ∧
    ((getP g' q).connectedAreas.all (fun w => decide ((getV g' w).roomId = rid)) = true)
  inlist : ∀ q ∈ (getV g' b).passages,
    q ∈ g'.passageEList ∧ (getP g' q).connectedAreas.count b = 1 ∧
    (∃ w ∈ (getP g' q).connectedAreas, (getV g' w).roomId ≠ rid) ∧
    (∃ w ∈ (getP g' q).connectedAreas, (getV g' w).roomId = rid)
  outlist : ∀ q, q ∉ (getV g' b).passages → (getP g' q).connectedAreas.count b = 0

theorem maStep_inv (g : AG) (rid : ℤ) (b : ℕ) (hb : (getV g b).roomId = rid)
    (g' : AG) (reml : List ℕ) (inv : MAInv g g' rid b reml) (p : ℕ)
    (hp5 : ∃ w ∈ (getP g' p).connectedAreas, (getV g' w).roomId = rid)
    (hp6 : p ∈ g.passageEList) :
    ∃ remt : List ℕ,
      MAInv g (mergeAreasPassage rid b g' p) rid b remt ∧
      (∀ q : ℕ, q ≠ p → getP (mergeAreasPassage rid b g' p) q = getP g' q) ∧
      (∃ w ∈ (getP (mergeAreasPassage rid b g' p) p).connectedAreas,
        (getV (mergeAreasPassage rid b g' p) w).roomId = rid) := by
  by_cases hall : ((getP g' p).connectedAreas.all
      (fun w => decide ((getV g' w).roomId = rid))) = true
  · -- interior passage: removed from the list, nothing else changes
    rw [mergeAreasPassage_interior rid b g' p hall]
    have hpnotin : p ∉ (getV g' b).passages := by
      intro hc
      obtain ⟨-, -, ⟨w, hw, hwne⟩, -⟩ := inv.inlist p hc
      have := List.all_eq_true.mp hall w hw
      simp only [decide_eq_true_eq] at this
      exact hwne this
    refine ⟨p :: reml, ⟨inv.rooms, ?_, ?_, ?_, inv.outlist⟩, fun q _ => rfl, hp5⟩
    · show g'.passageEList.filter (fun q => q ≠ p) = _
      rw [inv.elist, List.filter_filter]
      refine List.filter_congr (fun q _ => ?_)
      rw [List.contains_cons]
      by_cases hqp : q = p
      · subst hqp
        simp
      · have hbe : (q == p) = false := by simp [hqp]
        simp [hbe, hqp]
    · intro q hq
      rcases List.mem_cons.mp hq with rfl | hq2
      · exact ⟨inv.outlist q hpnotin, hpnotin, hall⟩
      · exact inv.removed q hq2
    · intro q hq
      obtain ⟨h1, h2, h3, h4⟩ := inv.inlist q hq
      have hqp : q ≠ p := fun hc => hpnotin (hc ▸ hq)
      refine ⟨List.mem_filter.mpr ⟨h1, by simp [hqp]⟩, h2, h3, h4⟩
  · -- active passage: connectedAreas rewritten, pushed onto the aggregate
    have hlen : 1 < (getP g' p).connectedAreas.length := by
      by_contra hle
      push_neg at hle
      apply hall
      rw [List.all_eq_true]
      intro x hx
      obtain ⟨w0, hw0m, hw0⟩ := hp5
      rw [mem_eq_of_length_le_one _ hle x hx w0 hw0m]
      simp [hw0]
    rw [mergeAreasPassage_active rid b g' p hall hlen]
    have hbg' : (getV g' b).roomId = rid := (inv.rooms b).trans hb
    have hrooms : ∀ w,
        (getV (modVert (setPass g' p
            ⟨rewriteCas g' rid b (getP g' p).connectedAreas true⟩) b
          (fun r => { r with passages := r.passages ++ [p] })) w).roomId
          = (getV g' w).roomId := by
      intro w
      by_cases hwb : w = b
      · subst hwb
        rw [getV_modVert_self]
        rfl
      · rw [getV_modVert_ne _ _ _ _ hwb]
        rfl
    have hpb : (getV (modVert (setPass g' p
          ⟨rewriteCas g' rid b (getP g' p).connectedAreas true⟩) b
        (fun r => { r with passages := r.passages ++ [p] })) b).passages
        = (getV g' b).passages ++ [p] := by
      rw [getV_modVert_self]
      rfl
    have hgp : ∀ q : ℕ, q ≠ p →
        getP (modVert (setPass g' p
            ⟨rewriteCas g' rid b (getP g' p).connectedAreas true⟩) b
          (fun r => { r with passages := r.passages ++ [p] })) q = getP g' q := by
      intro q hq
      show getP (setPass g' p _) q = getP g' q
      rw [getP_setPass, if_neg hq]
    have hgpp : getP (modVert (setPass g' p
          ⟨rewriteCas g' rid b (getP g' p).connectedAreas true⟩) b
        (fun r => { r with passages := r.passages ++ [p] })) p
        = ⟨rewriteCas g' rid b (getP g' p).connectedAreas true⟩ := by
      show getP (setPass g' p _) p = _
      rw [getP_setPass, if_pos rfl]
    have hcnt : (rewriteCas g' rid b (getP g' p).connectedAreas true).count b = 1 := by
      rw [(rewriteCas_count_b g' rid b hbg' _).1, if_pos hp5]
    have hbmem : b ∈ rewriteCas g' rid b (getP g' p).connectedAreas true := by
      have hpos : 0 < (rewriteCas g' rid b (getP g' p).connectedAreas true).count b := by
        rw [hcnt]
        exact Nat.one_pos
      exact List.count_pos_iff.mp hpos
    have hnr : ∃ w ∈ (getP g' p).connectedAreas, (getV g' w).roomId ≠ rid := by
      by_contra hcon
      push_neg at hcon
      exact hall (List.all_eq_true.mpr (fun x hx => by simp [hcon x hx]))
    have hnewnr : ∃ w ∈ rewriteCas g' rid b (getP g' p).connectedAreas true,
        (getV g' w).roomId ≠ rid := by
      obtain ⟨w, hw, hwne⟩ := hnr
      exact ⟨w, rewriteCas_keeps_nonrid g' rid b _ true w hw hwne, hwne⟩
    have hpnotreml : p ∉ reml := by
      intro hc
      obtain ⟨-, -, hallq⟩ := inv.removed p hc
      exact hall hallq
    have hpinE : p ∈ g'.passageEList := by
      rw [inv.elist]
      refine List.mem_filter.mpr ⟨hp6, ?_⟩
      rw [(containsIffMem' reml p).mpr hpnotreml]
      rfl
    refine ⟨reml, ⟨fun w => (hrooms w).trans (inv.rooms w), inv.elist, ?_, ?_, ?_⟩,
      hgp, ?_⟩
    · -- removed entries untouched
      intro q hq
      have hqp : q ≠ p := fun hc => hpnotreml (hc ▸ hq)
      obtain ⟨r1, r2, r3⟩ := inv.removed q hq
      refine ⟨by rw [hgp q hqp]; exact r1, ?_, ?_⟩
      · rw [hpb]
        intro hc
        rcases List.mem_append.mp hc with hc2 | hc2
        · exact r2 hc2
        · exact hqp (List.mem_singleton.mp hc2)
      · rw [hgp q hqp, all_rid_congr _ g' hrooms]
        exact r3
    · -- entries of the aggregate's passage list
      intro q hq
      rw [hpb] at hq
      by_cases hqp : q = p
      · subst hqp
        rw [hgpp]
        refine ⟨hpinE, hcnt, ?_, ?_⟩
        · exact exists_nrid_transport _ g' hrooms _ rid hnewnr
        · exact exists_rid_transport _ g' hrooms _ rid ⟨b, hbmem, hbg'⟩
      · have hq2 : q ∈ (getV g' b).passages := by
          rcases List.mem_append.mp hq with hc | hc
          · exact hc
          · exact absurd (List.mem_singleton.mp hc) hqp
        obtain ⟨h1, h2, h3, h4⟩ := inv.inlist q hq2
        rw [hgp q hqp]
        exact ⟨h1, h2, exists_nrid_transport _ g' hrooms _ rid h3,
          exists_rid_transport _ g' hrooms _ rid h4⟩
    · -- passages outside the aggregate list still unreferenced
      intro q hq
      rw [hpb] at hq
      have hqp : q ≠ p := by
        intro hc
        exact hq (hc ▸ List.mem_append_right _ (List.mem_singleton.mpr rfl))
      rw [hgp q hqp]
      exact inv.outlist q (fun hc => hq (List.mem_append_left _ hc))
    · -- the processed passage keeps a group-id entry (the aggregate itself)
      rw [hgpp]
      exact ⟨b, hbmem, (hrooms b).trans hbg'⟩

theorem maFold_inv (g : AG) (rid : ℤ) (b : ℕ) (hb : (getV g b).roomId = rid) :
    ∀ (ps : List ℕ) (g' : AG) (reml : List ℕ), MAInv g g' rid b reml →
      (∀ p ∈ ps, ∃ w ∈ (getP g' p).connectedAreas, (getV g' w).roomId = rid) →
      (∀ p ∈ ps, p ∈ g.passageEList) →
      ∃ remf, MAInv g (ps.foldl (mergeAreasPassage rid b) g') rid b remf := by
  intro ps
  induction ps with
  | nil => intro g' reml inv _ _; exact ⟨reml, inv⟩
  | cons p ps ih =>
    intro g' reml inv h5 h6
    rw [List.foldl_cons]
    obtain ⟨remt, inv2, hgp, hprid⟩ := maStep_inv g rid b hb g' reml inv p
      (h5 p (List.mem_cons_self _ _)) (h6 p (List.mem_cons_self _ _))
    refine ih (mergeAreasPassage rid b g' p) remt inv2 ?_
      (fun q hq => h6 q (List.mem_cons_of_mem _ hq))
    intro q hq
    by_cases hqp : q = p
    · subst hqp
      exact hprid
    · rw [hgp q hqp]
      obtain ⟨w, hw, hwr⟩ := h5 q (List.mem_cons_of_mem _ hq)
      exact ⟨w, hw, (inv2.rooms w).trans ((inv.rooms w).symm.trans hwr)⟩

theorem sum_indicator (S : List ℕ) (f : ℕ → ℕ) :
    ∀ L : List ℕ, (∀ q ∈ L, f q = if q ∈ S then 1 else 0) →
      (L.map f).sum = (L.filter (fun q => q ∈ S)).length := by
  intro L
  induction L with
  | nil => intro _; rfl
  | cons a t ih =>
    intro h
    rw [List.map_cons, List.sum_cons, ih (fun q hq => h q (List.mem_cons_of_mem _ hq)),
      List.filter_cons, h a (List.mem_cons_self _ _)]
    by_cases ha : a ∈ S
    · rw [if_pos ha, if_pos (by simpa using ha)]
      rw [List.length_cons]
      omega
    · rw [if_neg ha, if_neg (by simpa using ha)]
      omega

theorem length_eq_of_nodup_mem_iff (l1 l2 : List ℕ) (h1 : l1.Nodup) (h2 : l2.Nodup)
    (h : ∀ x, x ∈ l1 ↔ x ∈ l2) : l1.length = l2.length :=
  (List.perm_of_nodup_nodup_toFinset_eq h1 h2 (by
    ext x
    simp only [List.mem_toFinset]
    exact h x)).length_eq

theorem refs_congr (g1 g2 : AG) (hP : g1.passes = g2.passes)
    (hE : g1.passageEList = g2.passageEList) (v : ℕ) : refs g1 v = refs g2 v := by
  unfold refs getP
  rw [hP, hE]

theorem mrcCollect_wiring (rid : ℤ) :
    ∀ (ws : List ℕ) (g : AG),
      (mrcCollect rid g ws).1.passes = g.passes ∧
      (mrcCollect rid g ws).1.passageEList = g.passageEList := by
  intro ws
  induction ws with
  | nil => intro g; exact ⟨rfl, rfl⟩
  | cons w ws ih =>
    intro g
    have hunf : mrcCollect rid g (w :: ws)
        = if (getV g w).roomId = -1 ∨ (getV g w).roomId = -2 then mrcCollect rid g ws
          else if (getV g w).roomId = rid then
            ((mrcCollect rid (modVert g w (fun rv => { rv with roomId := -2 })) ws).1,
             w :: (mrcCollect rid (modVert g w (fun rv => { rv with roomId := -2 })) ws).2)
          else mrcCollect rid g ws := rfl
    rw [hunf]
    by_cases hA : (getV g w).roomId = -1 ∨ (getV g w).roomId = -2
    · rw [if_pos hA]
      exact ih g
    · rw [if_neg hA]
      by_cases hB : (getV g w).roomId = rid
      · rw [if_pos hB]
        exact ⟨(ih _).1, (ih _).2⟩
      · rw [if_neg hB]
        exact ih g

theorem foldl_modVert_wiring (f : ℕ → RVert → RVert) :
    ∀ (l : List ℕ) (g : AG),
      ((l.foldl (fun gg w => modVert gg w (f w)) g).passes = g.passes) ∧
      ((l.foldl (fun gg w => modVert gg w (f w)) g).passageEList = g.passageEList) := by
  intro l
  induction l with
  | nil => intro g; exact ⟨rfl, rfl⟩
  | cons a t ih =>
    intro g
    rw [List.foldl_cons]
    exact ⟨(ih _).1.trans rfl, (ih _).2.trans rfl⟩

theorem mrcOuter_wiring :
    ∀ (rest : List ℕ) (g : AG) (nn : List ℕ),
      (mrcOuter g nn rest).1.passes = g.passes ∧
      (mrcOuter g nn rest).1.passageEList = g.passageEList := by
  intro rest
  induction rest with
  | nil => intro g nn; exact ⟨rfl, rfl⟩
  | cons m rest ih =>
    intro g nn
    simp only [mrcOuter]
    by_cases hA : (getV g m).roomId = -1 ∨ (getV g m).roomId = -2
    · rw [if_pos hA]
      exact ih g nn
    · rw [if_neg hA]
      refine ⟨(ih _ _).1.trans ?_, (ih _ _).2.trans ?_⟩
      · exact ((foldl_modVert_wiring _ _ _).1).trans
          (mrcCollect_wiring ((getV g m).roomId) rest _).1
      · exact ((foldl_modVert_wiring _ _ _).2).trans
          (mrcCollect_wiring ((getV g m).roomId) rest _).2

theorem mergeRoomCell_wiring (g : AG) :
    (mergeRoomCell g).passes = g.passes ∧
    (mergeRoomCell g).passageEList = g.passageEList := by
  show ((mrcOuter g [] g.originSet).1.passes = g.passes) ∧
    ((mrcOuter g [] g.originSet).1.passageEList = g.passageEList)
  exact mrcOuter_wiring g.originSet g []

theorem pruneFold_wiring : ∀ (l : List ℕ) (st : AG × List ℕ),
    ((l.foldl pruneStep st).1.passes = st.1.passes) ∧
    ((l.foldl pruneStep st).1.passageEList = st.1.passageEList) := by
  intro l
  induction l with
  | nil => intro st; exact ⟨rfl, rfl⟩
  | cons u t ih =>
    intro st
    rw [List.foldl_cons]
    exact ⟨(ih _).1.trans rfl, (ih _).2.trans rfl⟩

theorem prunning_wiring (g : AG) :
    (prunning g).passes = g.passes ∧ (prunning g).passageEList = g.passageEList := by
  show ((g.originSet.foldl pruneStep (g, [])).1.passes = g.passes) ∧
    ((g.originSet.foldl pruneStep (g, [])).1.passageEList = g.passageEList)
  exact pruneFold_wiring g.originSet (g, [])

/-- Claim C2, amended: the merge phases conserve passage references counted
WITHOUT multiplicity.  (i) In `mergeAreas`, processing a group's member
passages against a freshly allocated aggregate `b` (roomGraph.cpp:95-133)
yields: the total `connectedAreas` count referencing `b` equals the number
of DISTINCT passages in `b`'s passages list - the list itself may hold
duplicates (roomGraph.cpp:107/121 push once per member), which is exactly
how the claimed multiset equality fails.  (ii) `mergeRoomCell` and
`prunning` modify no passage wiring, so every vertex's reference count is
preserved through the rest of the pipeline. -/
theorem claim2_passage_conservation (g : AG) (rid : ℤ) (b : ℕ) (ps : List ℕ)
    (h1 : (getV g b).roomId = rid)
    (h2 : (getV g b).passages = [])
    (h3 : ∀ p, (getP g p).connectedAreas.count b = 0)
    (h4 : g.passageEList.Nodup)
    (h5 : ∀ p ∈ ps, ∃ w ∈ (getP g p).connectedAreas, (getV g w).roomId = rid)
    (h6 : ∀ p ∈ ps, p ∈ g.passageEList) :
    refs (ps.foldl (mergeAreasPassage rid b) g) b
      = ((getV (ps.foldl (mergeAreasPassage rid b) g) b).passages).dedup.length ∧
    (∀ (g2 : AG) (v : ℕ), refs (prunning (mergeRoomCell g2)) v = refs g2 v) := by
  constructor
  · have inv0 : MAInv g g rid b [] := by
      refine ⟨fun w => rfl, (filter_not_contains_nil g.passageEList).symm, ?_, ?_, ?_⟩
      · intro q hq
        cases hq
      · intro q hq
        rw [h2] at hq
        cases hq
      · intro q _
        exact h3 q
    obtain ⟨remf, invF⟩ := maFold_inv g rid b h1 ps g [] inv0 h5 h6
    have hElnd : (ps.foldl (mergeAreasPassage rid b) g).passageEList.Nodup := by
      rw [invF.elist]
      exact h4.filter _
    have hcnt : ∀ q ∈ (ps.foldl (mergeAreasPassage rid b) g).passageEList,
        (getP (ps.foldl (mergeAreasPassage rid b) g) q).connectedAreas.count b
          = if q ∈ (getV (ps.foldl (mergeAreasPassage rid b) g) b).passages
            then 1 else 0 := by
      intro q _
      by_cases hq : q ∈ (getV (ps.foldl (mergeAreasPassage rid b) g) b).passages
      · rw [if_pos hq]
        exact (invF.inlist q hq).2.1
      · rw [if_neg hq]
        exact invF.outlist q hq
    have hsum : refs (ps.foldl (mergeAreasPassage rid b) g) b
        = ((ps.foldl (mergeAreasPassage rid b) g).passageEList.filter
            (fun q => q ∈ (getV (ps.foldl (mergeAreasPassage rid b) g) b).passages)).length := by
      show ((ps.foldl (mergeAreasPassage rid b) g).passageEList.map
          (fun p => (getP (ps.foldl (mergeAreasPassage rid b) g) p).connectedAreas.count b)).sum
        = _
      exact sum_indicator _ _ _ hcnt
    rw [hsum]
    refine length_eq_of_nodup_mem_iff _ _ (hElnd.filter _) (List.nodup_dedup _) ?_
    intro x
    rw [List.mem_filter, List.mem_dedup]
    constructor
    · rintro ⟨-, hx⟩
      simpa using hx
    · intro hx
      exact ⟨(invF.inlist x hx).1, by simpa using hx⟩
  · intro g2 v
    obtain ⟨hp1, he1⟩ := prunning_wiring (mergeRoomCell g2)
    obtain ⟨hp2, he2⟩ := mergeRoomCell_wiring g2
    exact refs_congr _ _ (hp1.trans hp2) (he1.trans he2) v

/-- The C2 witness instance: the junction graph with the aggregate vertex 3
pre-allocated (roomId 1, empty passages, unreferenced). -/
def c2WitGraph : AG :=
  { verts := fun v =>
      if v = 0 then mkRoomVert 1 [0]
      else if v = 1 then mkRoomVert 1 [0]
      else if v = 2 then mkRoomVert 2 [0]
      else if v = 3 then mkRoomVert 1 []
      else default,
    passes := fun _ => ⟨[0, 1, 2]⟩,
    originSet := [0, 1, 2], passageEList := [0], nextV := 4 }

/-- Witness for the amended C2 conservation law: processing passage 0 twice
(once per room-1 member) leaves refs = 1 = number of distinct passages of
the aggregate, while the raw passages list is [0, 0]. -/
theorem claim2_passage_conservation_witness :
    refs ([0, 0].foldl (mergeAreasPassage 1 3) c2WitGraph) 3
      = ((getV ([0, 0].foldl (mergeAreasPassage 1 3) c2WitGraph) 3).passages).dedup.length ∧
    refs ([0, 0].foldl (mergeAreasPassage 1 3) c2WitGraph) 3 = 1 ∧
    (getV ([0, 0].foldl (mergeAreasPassage 1 3) c2WitGraph) 3).passages = [0, 0] := by
  refine ⟨(claim2_passage_conservation c2WitGraph 1 3 [0, 0] ?_ ?_ ?_ ?_ ?_ ?_).1,
    by with_unfolding_all rfl, by with_unfolding_all rfl⟩
  · with_unfolding_all rfl
  · with_unfolding_all rfl
  · intro p
    with_unfolding_all rfl
  · exact of_decide_eq_true (by with_unfolding_all rfl)
  · intro p hp
    exact ⟨0, of_decide_eq_true (by with_unfolding_all rfl), by with_unfolding_all rfl⟩
  · exact of_decide_eq_true (by with_unfolding_all rfl)
